import Mathlib

/-!
Verification development for a session-based trend-continuation trading
strategy.  The definitions below are a shallow embedding of the strategy
core (`trading_system/core/strategy.py`): pandas float series are modelled
as lists over a value type `PVal` (finite rationals plus the IEEE special
values NaN / +inf / -inf that pandas arithmetic can produce), data frames
as lists of OHLC rows together with column-presence flags (a missing
column makes the corresponding access raise `KeyError`, modelled with
`Except`), and the mutable strategy instance state as an explicit record
threaded through the public operations.  Wall-clock timestamps and the
logging side channel are outside the embedding.
-/

attribute [local semireducible] Rat.add Rat.sub Rat.mul Rat.inv Rat.ofScientific

/-- Pandas/NumPy floating-point value: a finite rational, NaN, or a signed
infinity.  `fin q` stands for an exact float value `q`. -/
inductive PVal where
  | nan : PVal
  | pinf : PVal
  | ninf : PVal
  | fin : ℚ → PVal
deriving DecidableEq

/-- IEEE negation. -/
def PVal.neg : PVal → PVal
  | .nan => .nan
  | .pinf => .ninf
  | .ninf => .pinf
  | .fin q => .fin (-q)

/-- IEEE addition: NaN absorbs, opposite infinities give NaN. -/
def PVal.add : PVal → PVal → PVal
  | .nan, _ => .nan
  | _, .nan => .nan
  | .pinf, .ninf => .nan
  | .ninf, .pinf => .nan
  | .pinf, _ => .pinf
  | _, .pinf => .pinf
  | .ninf, _ => .ninf
  | _, .ninf => .ninf
  | .fin a, .fin b => .fin (a + b)

/-- IEEE subtraction. -/
def PVal.sub (a b : PVal) : PVal := a.add b.neg

/-- IEEE absolute value. -/
def PVal.abs : PVal → PVal
  | .nan => .nan
  | .pinf => .pinf
  | .ninf => .pinf
  | .fin q => .fin |q|

/-- IEEE multiplication: NaN absorbs, `inf * 0 = NaN`. -/
def PVal.mul : PVal → PVal → PVal
  | .nan, _ => .nan
  | _, .nan => .nan
  | .pinf, .pinf => .pinf
  | .pinf, .ninf => .ninf
  | .ninf, .pinf => .ninf
  | .ninf, .ninf => .pinf
  | .pinf, .fin q => if q = 0 then .nan else if 0 < q then .pinf else .ninf
  | .fin q, .pinf => if q = 0 then .nan else if 0 < q then .pinf else .ninf
  | .ninf, .fin q => if q = 0 then .nan else if 0 < q then .ninf else .pinf
  | .fin q, .ninf => if q = 0 then .nan else if 0 < q then .ninf else .pinf
  | .fin a, .fin b => .fin (a * b)

/-- IEEE division as produced by pandas element-wise division:
`x / 0` is a signed infinity for `x ≠ 0` and NaN for `x = 0`. -/
def PVal.div : PVal → PVal → PVal
  | .nan, _ => .nan
  | _, .nan => .nan
  | .pinf, .pinf => .nan
  | .pinf, .ninf => .nan
  | .ninf, .pinf => .nan
  | .ninf, .ninf => .nan
  | .fin _, .pinf => .fin 0
  | .fin _, .ninf => .fin 0
  | .pinf, .fin q => if 0 ≤ q then .pinf else .ninf
  | .ninf, .fin q => if 0 ≤ q then .ninf else .pinf
  | .fin a, .fin b =>
      if b = 0 then (if a = 0 then .nan else if 0 < a then .pinf else .ninf)
      else .fin (a / b)

/-- IEEE strict comparison: any comparison with NaN is false. -/
def PVal.lt : PVal → PVal → Bool
  | .nan, _ => false
  | _, .nan => false
  | .ninf, .ninf => false
  | .ninf, _ => true
  | _, .ninf => false
  | .pinf, _ => false
  | _, .pinf => true
  | .fin a, .fin b => decide (a < b)

/-- IEEE non-strict comparison: any comparison with NaN is false. -/
def PVal.le : PVal → PVal → Bool
  | .nan, _ => false
  | _, .nan => false
  | .ninf, _ => true
  | _, .ninf => false
  | _, .pinf => true
  | .pinf, _ => false
  | .fin a, .fin b => decide (a ≤ b)

/-- Python builtin `min x y`: returns `y` when `y < x`, else `x`
(so NaN in first position propagates). -/
def PVal.pymin (a b : PVal) : PVal := if PVal.lt b a then b else a

/-- NaN test. -/
def PVal.isNan : PVal → Bool
  | .nan => true
  | _ => false

/-- Row-wise maximum as computed by `pd.concat([...],axis=1).max(axis=1)`
with the default `skipna=True`: NaN operands are ignored. -/
def PVal.maxSkip : PVal → PVal → PVal
  | .nan, b => b
  | a, .nan => a
  | a, b => if PVal.lt a b then b else a

/-- Boolean test that a value is a finite rational inside `[lo, hi]`. -/
def PVal.finBetween (lo hi : ℚ) : PVal → Bool
  | .fin q => decide (lo ≤ q) && decide (q ≤ hi)
  | _ => false

/-- One OHLC bar (the volume/open fields are never read by the core). -/
structure OhlcRow where
  high : ℚ
  low : ℚ
  close : ℚ
deriving DecidableEq

/-- A pandas data frame of OHLC bars.  The three flags model whether the
corresponding column is present; accessing an absent column raises
`KeyError` exactly as in pandas. -/
structure DataFrame where
  rows : List OhlcRow
  hasHighCol : Bool
  hasLowCol : Bool
  hasCloseCol : Bool
deriving DecidableEq

/-- Column access `df["high"]`. -/
def DataFrame.getHigh (df : DataFrame) : Except String (List ℚ) :=
  if df.hasHighCol then .ok (df.rows.map (·.high)) else .error "KeyError: high"

/-- Column access `df["low"]`. -/
def DataFrame.getLow (df : DataFrame) : Except String (List ℚ) :=
  if df.hasLowCol then .ok (df.rows.map (·.low)) else .error "KeyError: low"

/-- Column access `df["close"]`. -/
def DataFrame.getClose (df : DataFrame) : Except String (List ℚ) :=
  if df.hasCloseCol then .ok (df.rows.map (·.close)) else .error "KeyError: close"

/-- Series `.diff()`: NaN at position 0, then `x i - x (i-1)`. -/
def diffQ (xs : List ℚ) : List PVal :=
  match xs with
  | [] => []
  | _ :: tl => PVal.nan :: List.zipWith (fun a b => PVal.fin (a - b)) tl xs

/-- Sum of a pandas series segment. -/
def sumP : List PVal → PVal
  | [] => .fin 0
  | x :: tl => x.add (sumP tl)

/-- Mean of one rolling window: NaN as soon as the window contains a NaN
(`min_periods` defaults to the window size), else the arithmetic mean. -/
def meanP (l : List PVal) : PVal :=
  if l.any PVal.isNan then .nan else (sumP l).div (.fin l.length)

/-- `series.rolling(window=p).mean()`: NaN before `p` observations exist,
then the mean of the trailing `p`-element window. -/
def rollingMeanP (p : ℕ) (xs : List PVal) : List PVal :=
  (List.range xs.length).map
    (fun i => if i + 1 < p then PVal.nan else meanP ((xs.take (i + 1)).drop (i + 1 - p)))

/-- Weighted sum `sum r^k * l k` with the head of `l` taking weight 1. -/
def wsum (r : ℚ) : List ℚ → ℚ
  | [] => 0
  | x :: tl => x + r * wsum r tl

/-- `series.ewm(span=s).mean()` on an all-finite series with the pandas
defaults `adjust=True`: entry `i` is the weighted average of the prefix
reversed, with decay `r = (s-1)/(s+1)`. -/
def ewmMeanQ (span : ℕ) (xs : List ℚ) : List ℚ :=
  let r : ℚ := ((span : ℚ) - 1) / ((span : ℚ) + 1)
  (List.range xs.length).map
    (fun i => wsum r ((xs.take (i + 1)).reverse) / wsum r (List.replicate (i + 1) 1))

/-- `pandas` raises `ValueError` when `span < 1`; embedding of the guard. -/
def ewmMeanQE (span : ℕ) (xs : List ℚ) : Except String (List ℚ) :=
  if span = 0 then .error "ValueError: span must be greater than 0" else .ok (ewmMeanQ span xs)

/-- Numerator/denominator accumulator for `ewm(span).mean()` over a
possibly-NaN series in reverse order (head = most recent, weight 1;
`ignore_na=False` keeps absolute positions). -/
def ewmAccRev (r : ℚ) : List PVal → PVal × ℚ
  | [] => (.fin 0, 0)
  | .nan :: tl =>
      let acc := ewmAccRev r tl
      ((PVal.fin r).mul acc.1, r * acc.2)
  | x :: tl =>
      let acc := ewmAccRev r tl
      (x.add ((PVal.fin r).mul acc.1), 1 + r * acc.2)

/-- `series.ewm(span).mean()` over a pandas series (NaN entries skipped,
all-NaN prefixes give NaN). -/
def ewmMeanP (span : ℕ) (xs : List PVal) : List PVal :=
  let r : ℚ := ((span : ℚ) - 1) / ((span : ℚ) + 1)
  (List.range xs.length).map
    (fun i =>
      let acc := ewmAccRev r ((xs.take (i + 1)).reverse)
      if acc.2 = 0 then PVal.nan else acc.1.div (.fin acc.2))

/-- `series.fillna(0)`. -/
def fillna0 (xs : List PVal) : List PVal :=
  xs.map (fun v => if v = .nan then .fin 0 else v)

/-- `series.iloc[-1]`: the last element, raising `IndexError` when empty. -/
def ilocLast (xs : List ℚ) : Except String ℚ :=
  match xs.getLast? with
  | some v => .ok v
  | none => .error "IndexError: single positional indexer is out-of-bounds"

/-- True-range recursion: bar `i` contributes
`max(high-low, |high-prev_close|, |low-prev_close|)` with the NaN-skipping
row maximum (the first bar has `prev_close = NaN`, so it degenerates to
`high - low`).  This renders the `shift`/`concat`/`max(axis=1)` pipeline
of `_calculate_adx`/`_calculate_atr` bar by bar. -/
def trAux (prev : PVal) : List ((ℚ × ℚ) × ℚ) → List PVal
  | [] => []
  | ((h, l), c) :: tl =>
      (PVal.maxSkip (PVal.maxSkip (.fin (h - l)) (((PVal.fin h).sub prev).abs))
          (((PVal.fin l).sub prev).abs)) :: trAux (.fin c) tl

/-- True-range series of the three OHLC columns. -/
def trueRangeList (high low close : List ℚ) : List PVal :=
  trAux .nan ((high.zip low).zip close)

/-- Element-wise value of `dm_plus` after the two sequential masked
assignments `dm_plus[dm_plus < dm_minus] = 0` and `dm_plus[dm_plus < 0] = 0`
(`p`/`m` are the raw `high.diff()` and `-low.diff()` entries). -/
def dmPlusStep (p m : PVal) : PVal :=
  let p1 := if PVal.lt p m then PVal.fin 0 else p
  if PVal.lt p1 (.fin 0) then .fin 0 else p1

/-- Element-wise value of `dm_minus` after
`dm_minus[dm_minus < dm_plus] = 0` (against the already-updated `dm_plus`)
and `dm_minus[dm_minus < 0] = 0`. -/
def dmMinusStep (p m : PVal) : PVal :=
  let m1 := if PVal.lt m (dmPlusStep p m) then PVal.fin 0 else m
  if PVal.lt m1 (.fin 0) then .fin 0 else m1

/-- The directional-movement pair of `_calculate_adx` after the zeroing
step, staged exactly as in the source: `dm_plus` is fully updated first
and the updated series is used in the `dm_minus` masks. -/
def dmLists (high low : List ℚ) : List PVal × List PVal :=
  let dmp0 := diffQ high
  let dmm0 := (diffQ low).map PVal.neg
  let dmp2 := List.zipWith dmPlusStep dmp0 dmm0
  let dmm2 := List.zipWith dmMinusStep dmp0 dmm0
  (dmp2, dmm2)

/-- Trend direction enumeration. -/
inductive TrendDirection where
  | bullish : TrendDirection
  | bearish : TrendDirection
  | sideways : TrendDirection
deriving DecidableEq

/-- String value of a trend direction (`TrendDirection(...).value`). -/
def trendValue : TrendDirection → String
  | .bullish => "bullish"
  | .bearish => "bearish"
  | .sideways => "sideways"

/-- Trading session types. -/
inductive SessionType where
  | asian : SessionType
  | european : SessionType
  | us : SessionType
  | overlap : SessionType
deriving DecidableEq

/-- Strategy configuration (`StrategyConfig`): EMA periods for the two
timeframes, the ADX filter, and ATR risk sizing. -/
structure StrategyConfig where
  name : String
  d1_ema_fast : ℕ
  d1_ema_slow : ℕ
  h4_ema_fast : ℕ
  h4_ema_slow : ℕ
  adx_period : ℕ
  adx_threshold : ℚ
  atr_period : ℕ
  atr_multiplier : ℚ
deriving DecidableEq

/-- Trend analysis results. -/
structure TrendAnalysis where
  d1_trend : TrendDirection
  h4_trend : TrendDirection
  adx_strength : PVal
  ema_fast : ℚ
  ema_slow : ℚ
  atr_value : PVal
  trend_confirmation : Bool
deriving DecidableEq

/-- The indicator snapshot stored in `SignalData.metadata`. -/
structure SignalMetadata where
  atr_value : PVal
  adx_strength : PVal
  trend_d1 : String
  atr_multiplier : ℚ
deriving DecidableEq

/-- Trading signal data structure (the wall-clock `timestamp` field is
outside the embedding). -/
structure SignalData where
  symbol : String
  signal_type : String
  strength : PVal
  session : SessionType
  price : ℚ
  stop_loss : Option PVal
  take_profit : Option PVal
  risk_amount : Option ℚ
  metadata : Option SignalMetadata
deriving DecidableEq

/-- Mutable strategy instance state: the two symbol-keyed caches,
modelled as insertion-ordered association lists (Python dicts). -/
structure StrategyState where
  active_signals : List (String × SignalData)
  trend_cache : List (String × TrendAnalysis)
deriving DecidableEq

/-- Freshly constructed strategy state: both caches empty. -/
def initState : StrategyState := ⟨[], []⟩

/-- Python dict assignment `d[k] = v`: overwrite in place or append. -/
def alUpdate {β : Type} (l : List (String × β)) (k : String) (v : β) : List (String × β) :=
  match l with
  | [] => [(k, v)]
  | (k', v') :: tl => if k' = k then (k, v) :: tl else (k', v') :: alUpdate tl k v

/-- Python dict lookup `d[k]`. -/
def alLookup {β : Type} (l : List (String × β)) (k : String) : Option β :=
  match l with
  | [] => none
  | (k', v') :: tl => if k' = k then some v' else alLookup tl k

/-- `_compute_trend_d1`: SIDEWAYS below `max(fast, slow)` observations,
otherwise the EMA-crossover comparison of the latest values. -/
def computeTrendD1 (cfg : StrategyConfig) (df : DataFrame) : Except String TrendDirection :=
  if df.rows.length < max cfg.d1_ema_fast cfg.d1_ema_slow then .ok .sideways
  else do
    let close ← df.getClose
    let emaFast ← ewmMeanQE cfg.d1_ema_fast close
    let emaSlow ← ewmMeanQE cfg.d1_ema_slow close
    let latestFast ← ilocLast emaFast
    let latestSlow ← ilocLast emaSlow
    .ok (if latestFast > latestSlow then .bullish
         else if latestFast < latestSlow then .bearish
         else .sideways)

/-- `_calculate_adx`: true range, sequentially-zeroed directional
movement, rolling-mean smoothing, the DI pair, DX, a second rolling mean,
and a final `fillna(0)`. -/
def calculateAdx (period : ℕ) (df : DataFrame) : Except String (List PVal) := do
  let high ← df.getHigh
  let low ← df.getLow
  let close ← df.getClose
  if period = 0 then .error "ValueError: window must be an integer greater than 0"
  else
    let tr := trueRangeList high low close
    let dm := dmLists high low
    let atrR := rollingMeanP period tr
    let diPlus := List.zipWith (fun d a => (d.div a).mul (.fin 100)) (rollingMeanP period dm.1) atrR
    let diMinus := List.zipWith (fun d a => (d.div a).mul (.fin 100)) (rollingMeanP period dm.2) atrR
    let dx := List.zipWith (fun p m => (((p.sub m).abs).div (p.add m)).mul (.fin 100)) diPlus diMinus
    let adx := rollingMeanP period dx
    .ok (fillna0 adx)

/-- `_calculate_atr`: exponential moving average of the true range,
missing leading values filled with 0. -/
def calculateAtr (period : ℕ) (df : DataFrame) : Except String (List PVal) := do
  let high ← df.getHigh
  let low ← df.getLow
  let close ← df.getClose
  if period = 0 then .error "ValueError: span must be greater than 0"
  else
    let tr := trueRangeList high low close
    .ok (fillna0 (ewmMeanP period tr))

/-- `_compute_trend_h4`: the guard also counts `adx_period`; the computing
branch returns `(trend, latest_adx, latest_fast, latest_slow, latest_atr)`. -/
def computeTrendH4 (cfg : StrategyConfig) (df : DataFrame) :
    Except String (TrendDirection × PVal × ℚ × ℚ × PVal) :=
  if df.rows.length < max (max cfg.h4_ema_fast cfg.h4_ema_slow) cfg.adx_period then
    .ok (.sideways, .fin 0, 0, 0, .fin 0)
  else do
    let close ← df.getClose
    let emaFast ← ewmMeanQE cfg.h4_ema_fast close
    let emaSlow ← ewmMeanQE cfg.h4_ema_slow close
    let adxList ← calculateAdx cfg.adx_period df
    let atrList ← calculateAtr cfg.atr_period df
    let latestFast ← ilocLast emaFast
    let latestSlow ← ilocLast emaSlow
    let latestAdx := adxList.getLast?.getD (.fin 0)
    let latestAtr := atrList.getLast?.getD (.fin 0)
    let h4t : TrendDirection :=
      if latestFast > latestSlow then .bullish
      else if latestFast < latestSlow then .bearish
      else .sideways
    .ok (h4t, latestAdx, latestFast, latestSlow, latestAtr)

/-- `_is_trend_confirmed`: trend alignment away from SIDEWAYS plus the
ADX threshold test (`>=` with IEEE semantics, so NaN never confirms). -/
def isTrendConfirmed (cfg : StrategyConfig) (d1t h4t : TrendDirection) (adx : PVal) : Bool :=
  let trendsAlign := decide (d1t = h4t) && decide (d1t ≠ TrendDirection.sideways)
  let adxConfirms := PVal.le (.fin cfg.adx_threshold) adx
  trendsAlign && adxConfirms

/-- `analyze_trend`: D1 trend, H4 trend plus indicators, confirmation.
The `except` clause of the source logs and re-raises, so errors propagate
unchanged. -/
def analyzeTrend (cfg : StrategyConfig) (d1 h4 : DataFrame) : Except String TrendAnalysis := do
  let d1t ← computeTrendD1 cfg d1
  let r ← computeTrendH4 cfg h4
  let conf := isTrendConfirmed cfg d1t r.1 r.2.1
  .ok ⟨d1t, r.1, r.2.1, r.2.2.1, r.2.2.2.1, r.2.2.2.2, conf⟩

/-- `_create_signal`: signal type from the trend, ADX-normalised strength,
ATR-scaled stop loss and 2:1 take profit. -/
def createSignal (cfg : StrategyConfig) (symbol : String) (trend : TrendDirection)
    (session : SessionType) (price : ℚ) (atr adx : PVal) : SignalData :=
  let signalType := if trend = TrendDirection.bullish then "buy" else "sell"
  let strength := PVal.pymin (adx.div (.fin 50)) (.fin 1)
  let m := cfg.atr_multiplier
  let stopLoss :=
    if trend = TrendDirection.bullish then (PVal.fin price).sub (atr.mul (.fin m))
    else (PVal.fin price).add (atr.mul (.fin m))
  let takeProfit :=
    if trend = TrendDirection.bullish then (PVal.fin price).add ((atr.mul (.fin m)).mul (.fin 2))
    else (PVal.fin price).sub ((atr.mul (.fin m)).mul (.fin 2))
  ⟨symbol, signalType, strength, session, price, some stopLoss, some takeProfit, none,
    some ⟨atr, adx, trendValue trend, m⟩⟩

/-- `generate_signal`: analyze, cache the analysis under the symbol, then
synthesize a signal only on confirmation; any exception is caught and
converted to `None` with no state change. -/
def generateSignal (cfg : StrategyConfig) (st : StrategyState) (symbol : String)
    (d1 h4 : DataFrame) (session : SessionType) (price : ℚ) :
    Option SignalData × StrategyState :=
  match analyzeTrend cfg d1 h4 with
  | .error _ => (none, st)
  | .ok analysis =>
      let st1 : StrategyState := ⟨st.active_signals, alUpdate st.trend_cache symbol analysis⟩
      if analysis.trend_confirmation then
        (some (createSignal cfg symbol analysis.d1_trend session price
          analysis.atr_value analysis.adx_strength), st1)
      else (none, st1)

/-- Snapshot returned by `get_strategy_status` (the config echo and
timestamp are outside the embedding). -/
structure StatusSnapshot where
  name : String
  active_signals : ℕ
  cached_analysis : ℕ
deriving DecidableEq

/-- `get_strategy_status`: read-only counts of the two caches. -/
def getStrategyStatus (cfg : StrategyConfig) (st : StrategyState) : StatusSnapshot :=
  ⟨cfg.name, st.active_signals.length, st.trend_cache.length⟩

/-- One public strategy operation, for reasoning about call sequences. -/
inductive StrategyOp where
  | analyze : DataFrame → DataFrame → StrategyOp
  | genSignal : String → DataFrame → DataFrame → SessionType → ℚ → StrategyOp
  | status : StrategyOp

/-- State transition of one public operation (`analyze_trend` and
`get_strategy_status` do not mutate state). -/
def applyOp (cfg : StrategyConfig) (st : StrategyState) : StrategyOp → StrategyState
  | .analyze _ _ => st
  | .genSignal symbol d1 h4 session price => (generateSignal cfg st symbol d1 h4 session price).2
  | .status => st

/-- Run a sequence of public operations. -/
def runOps (cfg : StrategyConfig) (st : StrategyState) (ops : List StrategyOp) : StrategyState :=
  ops.foldl (applyOp cfg) st

/-- Trend classifier as the specification words it (for the refinement
comparison of claim C3): SIDEWAYS below `max(fast, slow)` observations,
otherwise the comparison of the latest fast/slow EMA values. -/
def classifyPerSpec (fastP slowP : ℕ) (closes : List ℚ) : TrendDirection :=
  if closes.length < max fastP slowP then .sideways
  else
    let lf := ((ewmMeanQ fastP closes).getLast?).getD 0
    let ls := ((ewmMeanQ slowP closes).getLast?).getD 0
    if lf > ls then .bullish else if lf < ls then .bearish else .sideways

/-- The H4 classifier with the guard the source actually uses, which also
counts `adx_period` (the amended form of claim C3). -/
def classifyPerSpecH4 (fastP slowP adxP : ℕ) (closes : List ℚ) : TrendDirection :=
  if closes.length < max (max fastP slowP) adxP then .sideways
  else
    let lf := ((ewmMeanQ fastP closes).getLast?).getD 0
    let ls := ((ewmMeanQ slowP closes).getLast?).getD 0
    if lf > ls then .bullish else if lf < ls then .bearish else .sideways

/-- Scenario with `atr_period = 1` and a final bar of zero true range:
all periods are at least 1, the threshold and multiplier are positive, and
every row satisfies `low ≤ close ≤ high`. -/
def c2cfg : StrategyConfig := ⟨"trend", 1, 2, 1, 2, 2, 25, 1, 2⟩

/-- Bars with rising closes whose last bar has `high = low = prev close`,
so the latest true range is 0 while the ADX window is still strong. -/
def c2df : DataFrame := ⟨[⟨2, 0, 1⟩, ⟨3, 1, 2⟩, ⟨4, 2, 3⟩, ⟨5, 3, 4⟩, ⟨4, 4, 4⟩], true, true, true⟩

/-- Scenario with `atr_period = 2` and uniformly rising bars, giving a
confirmed signal with a strictly positive risk distance. -/
def cwcfg : StrategyConfig := ⟨"trend", 1, 2, 1, 2, 2, 25, 2, 2⟩

/-- Uniformly rising bars: every true range is 2. -/
def cwdf : DataFrame := ⟨[⟨2, 0, 1⟩, ⟨3, 1, 2⟩, ⟨4, 2, 3⟩, ⟨5, 3, 4⟩, ⟨6, 4, 5⟩], true, true, true⟩

/-- Configuration whose `adx_period` (5) exceeds both H4 EMA periods. -/
def c3cfg : StrategyConfig := ⟨"trend", 1, 2, 1, 2, 5, 25, 1, 2⟩

/-- Three rising bars: enough history for the H4 EMA pair (max period 2)
but fewer rows than `adx_period = 5`. -/
def c3df : DataFrame :=
  ⟨[⟨3/2, 1/2, 1⟩, ⟨5/2, 3/2, 2⟩, ⟨7/2, 5/2, 3⟩], true, true, true⟩

/-- Configuration for the malformed-input scenarios. -/
def c4cfg : StrategyConfig := ⟨"trend", 1, 2, 1, 2, 2, 25, 1, 2⟩

/-- Two bars but no close column: long enough to pass the D1 length guard,
so the column access raises `KeyError`. -/
def c4df : DataFrame := ⟨[⟨2, 0, 1⟩, ⟨3, 1, 2⟩], true, true, false⟩

/-- Configuration with D1 periods 1 and 2 for the monotone-series claim. -/
def c8cfg : StrategyConfig := ⟨"trend", 1, 2, 1, 2, 2, 25, 1, 2⟩

/-- Three bars with strictly increasing closes. -/
def c8dfInc : DataFrame := ⟨[⟨2, 0, 1⟩, ⟨3, 1, 2⟩, ⟨4, 2, 3⟩], true, true, true⟩

/-- Three bars with strictly decreasing closes. -/
def c8dfDec : DataFrame := ⟨[⟨4, 2, 3⟩, ⟨3, 1, 2⟩, ⟨2, 0, 1⟩], true, true, true⟩

theorem alLookup_alUpdate {β : Type} (l : List (String × β)) (k : String) (v : β) :
    alLookup (alUpdate l k v) k = some v := by
  induction l with
  | nil => simp [alUpdate, alLookup]
  | cons hd tl ih =>
      obtain ⟨k', v'⟩ := hd
      by_cases h : k' = k
      · simp [alUpdate, alLookup, h]
      · simp [alUpdate, alLookup, h, ih]

theorem applyOp_preserves_active (cfg : StrategyConfig) (st : StrategyState) (op : StrategyOp) :
    (applyOp cfg st op).active_signals = st.active_signals := by
  cases op with
  | analyze d1 h4 => rfl
  | status => rfl
  | genSignal s d1 h4 session price =>
      simp only [applyOp, generateSignal]
      cases h : analyzeTrend cfg d1 h4 with
      | error e => rfl
      | ok a =>
          dsimp only
          split <;> rfl

theorem runOps_preserves_active (cfg : StrategyConfig) (ops : List StrategyOp) :
    ∀ st : StrategyState, (runOps cfg st ops).active_signals = st.active_signals := by
  induction ops with
  | nil => intro st; rfl
  | cons op tl ih =>
      intro st
      have : runOps cfg st (op :: tl) = runOps cfg (applyOp cfg st op) tl := by
        simp [runOps]
      rw [this, ih, applyOp_preserves_active]

/-- C1: `_is_trend_confirmed` is true exactly when the two trends agree,
are not SIDEWAYS, and the strength reaches the configured threshold, and
false for every other combination. -/
theorem c1_confirmation_iff (cfg : StrategyConfig) (a b : TrendDirection) (s : ℚ) :
    isTrendConfirmed cfg a b (.fin s) = true ↔
      (a = b ∧ a ≠ TrendDirection.sideways ∧ cfg.adx_threshold ≤ s) := by
  simp [isTrendConfirmed, PVal.le, and_assoc]

/-- C4 counterexample: on a frame whose close column is missing (with
enough rows to pass the length guard), `analyze_trend` does not convert
the failure to a null result but re-raises, surfacing the `KeyError` to
its caller. -/
theorem c4_counterexample :
    analyzeTrend c4cfg c4df c4df = .error "KeyError: close" := by rfl

/-- C4 amended: `generate_signal` catches analysis exceptions and returns
no signal, while `analyze_trend` itself propagates them to its caller. -/
theorem c4_generate_converts_to_none (cfg : StrategyConfig) (st : StrategyState)
    (symbol : String) (d1 h4 : DataFrame) (session : SessionType) (price : ℚ) (e : String)
    (h : analyzeTrend cfg d1 h4 = .error e) :
    (generateSignal cfg st symbol d1 h4 session price).1 = none := by
  simp [generateSignal, h]

theorem c4_generate_converts_to_none_witness :
    (generateSignal c4cfg initState "EURUSD" c4df c4df .european 10).1 = none :=
  c4_generate_converts_to_none c4cfg initState "EURUSD" c4df c4df .european 10
    "KeyError: close" (by rfl)

/-- C6 counterexample: when the raw upward and downward moves are equal
and positive (high rises by 2 while low falls by 2), the sequential
zeroing keeps BOTH directional movements nonzero at that bar. -/
theorem c6_counterexample :
    (dmLists [10, 12] [5, 3]).1.getD 1 .nan = .fin 2 ∧
    (dmLists [10, 12] [5, 3]).2.getD 1 .nan = .fin 2 ∧
    ¬((dmLists [10, 12] [5, 3]).1.getD 1 .nan = .fin 0 ∨
      (dmLists [10, 12] [5, 3]).2.getD 1 .nan = .fin 0) := by decide

/-- C7: after any `generate_signal` call whose analysis succeeds, the
trend cache holds exactly the analysis `analyze_trend` returns for the
same inputs under the symbol, overwriting any prior entry. -/
theorem c7_cache_write (cfg : StrategyConfig) (st : StrategyState) (symbol : String)
    (d1 h4 : DataFrame) (session : SessionType) (price : ℚ) (a : TrendAnalysis)
    (h : analyzeTrend cfg d1 h4 = .ok a) :
    alLookup ((generateSignal cfg st symbol d1 h4 session price).2).trend_cache symbol =
      some a := by
  simp only [generateSignal, h]
  split <;> exact alLookup_alUpdate st.trend_cache symbol a

theorem c7_cache_write_witness :
    alLookup ((generateSignal cwcfg initState "GBPUSD" cwdf cwdf .asian 10).2).trend_cache
      "GBPUSD" = some ⟨.bullish, .bullish, .fin 100, 5, 547/121, .fin 2, true⟩ :=
  c7_cache_write cwcfg initState "GBPUSD" cwdf cwdf .asian 10
    ⟨.bullish, .bullish, .fin 100, 5, 547/121, .fin 2, true⟩ (by rfl)

/-- C9: when the analysis raises, `generate_signal` returns no signal and
leaves the strategy state exactly as it was (the cache write is skipped). -/
theorem c9_error_atomicity (cfg : StrategyConfig) (st : StrategyState) (symbol : String)
    (d1 h4 : DataFrame) (session : SessionType) (price : ℚ) (e : String)
    (h : analyzeTrend cfg d1 h4 = .error e) :
    generateSignal cfg st symbol d1 h4 session price = (none, st) := by
  simp [generateSignal, h]

theorem c9_error_atomicity_witness :
    generateSignal c4cfg initState "USDJPY" c4df c4df .us 10 = (none, initState) :=
  c9_error_atomicity c4cfg initState "USDJPY" c4df c4df .us 10
    "KeyError: close" (by rfl)

/-- C10: no implemented public operation ever writes `active_signals`:
after any sequence of public calls on a fresh strategy the registry is
still empty and the status snapshot reports zero active signals. -/
theorem c10_active_signals_empty (cfg : StrategyConfig) (ops : List StrategyOp) :
    (runOps cfg initState ops).active_signals = [] ∧
      (getStrategyStatus cfg (runOps cfg initState ops)).active_signals = 0 := by
  have h : (runOps cfg initState ops).active_signals = [] :=
    runOps_preserves_active cfg ops initState
  exact ⟨h, by simp [getStrategyStatus, h]⟩

theorem length_diffQ (xs : List ℚ) : (diffQ xs).length = xs.length := by
  cases xs with
  | nil => rfl
  | cons x tl => simp [diffQ]

theorem dmPlusStep_fin (a b : ℚ) :
    dmPlusStep (.fin a) (.fin b) = if a < b ∨ a < 0 then .fin 0 else .fin a := by
  by_cases hab : a < b
  · simp [dmPlusStep, PVal.lt, hab]
  · by_cases ha0 : a < 0 <;> simp [dmPlusStep, PVal.lt, hab, ha0]

theorem dmMinusStep_fin (a b : ℚ) :
    dmMinusStep (.fin a) (.fin b) =
      if b < (if a < b ∨ a < 0 then (0 : ℚ) else a) ∨ b < 0 then .fin 0 else .fin b := by
  unfold dmMinusStep
  rw [dmPlusStep_fin]
  by_cases h1 : a < b ∨ a < 0
  · simp only [h1, if_true]
    by_cases h2 : b < 0 <;> simp [PVal.lt, h2]
  · simp only [h1, if_false]
    by_cases h2 : b < a <;> by_cases h3 : b < 0 <;> simp [PVal.lt, h2, h3]

theorem dmStep_fin_props (a b : ℚ) :
    (∃ q, dmPlusStep (.fin a) (.fin b) = .fin q ∧ 0 ≤ q) ∧
    (∃ q, dmMinusStep (.fin a) (.fin b) = .fin q ∧ 0 ≤ q) ∧
    (dmPlusStep (.fin a) (.fin b) ≠ dmMinusStep (.fin a) (.fin b) →
      dmPlusStep (.fin a) (.fin b) = .fin 0 ∨ dmMinusStep (.fin a) (.fin b) = .fin 0) := by
  rw [dmPlusStep_fin, dmMinusStep_fin]
  by_cases h1 : a < b ∨ a < 0
  · simp only [h1, if_true, lt_irrefl, or_self]
    refine ⟨⟨0, rfl, le_refl 0⟩, ?_, fun _ => Or.inl trivial⟩
    by_cases h2 : b < 0
    · exact ⟨0, by simp [h2], le_refl 0⟩
    · exact ⟨b, by simp [h2], le_of_not_lt h2⟩
  · simp only [h1, if_false]
    have h1' := h1
    push_neg at h1'
    obtain ⟨hba, ha0⟩ := h1'
    refine ⟨⟨a, rfl, ha0⟩, ?_, ?_⟩
    · by_cases h2 : b < a ∨ b < 0
      · exact ⟨0, by simp [h2], le_refl 0⟩
      · refine ⟨b, by simp [h2], ?_⟩
        push_neg at h2
        exact h2.2
    · intro hne
      by_cases h2 : b < a ∨ b < 0
      · right; simp [h2]
      · exfalso
        rw [if_neg h2] at hne
        push_neg at h2
        have hab : a = b := le_antisymm h2.1 hba
        rw [hab] at hne
        exact hne rfl

theorem diffQ_pair_shape (high low : List ℚ) (hlen : high.length = low.length) (i : ℕ)
    (hhi : i < high.length) :
    ((diffQ high)[i]? = some .nan ∧ ((diffQ low).map PVal.neg)[i]? = some .nan) ∨
    (∃ a b, (diffQ high)[i]? = some (.fin a) ∧
      ((diffQ low).map PVal.neg)[i]? = some (.fin b)) := by
  cases high with
  | nil => simp at hhi
  | cons h ht =>
      cases low with
      | nil => simp at hlen
      | cons l lt =>
          cases i with
          | zero =>
              left
              constructor
              · simp [diffQ]
              · simp [diffQ, PVal.neg]
          | succ j =>
              right
              have hj : j < ht.length := by
                simp at hhi
                omega
              have hj' : j < lt.length := by
                simp at hlen
                omega
              have hj2 : j < (h :: ht).length := by simp; omega
              have hj2' : j < (l :: lt).length := by simp; omega
              refine ⟨ht[j] - (h :: ht)[j], -(lt[j] - (l :: lt)[j]), ?_, ?_⟩
              · simp only [diffQ, List.getElem?_cons_succ]
                rw [List.getElem?_zipWith']
                simp [List.getElem?_eq_getElem hj, List.getElem?_eq_getElem hj2]
              · simp only [diffQ, List.map_cons, List.getElem?_cons_succ]
                rw [List.getElem?_map, List.getElem?_zipWith']
                simp [List.getElem?_eq_getElem hj', List.getElem?_eq_getElem hj2', PVal.neg]

/-- C6 amended: after the zeroing step both directional movements are
nonnegative (NaN at the first bar), and at every bar where the two final
values differ at most one of them is nonzero; when the raw +DM and -DM
are equal and positive, both survive the zeroing (see
`c6_counterexample`). -/
theorem c6_dm_zeroing (high low : List ℚ) (hlen : high.length = low.length) (i : ℕ)
    (hi : i < (dmLists high low).1.length) :
    ((dmLists high low).1.getD i .nan = .nan ∨
      ∃ q, (dmLists high low).1.getD i .nan = .fin q ∧ 0 ≤ q) ∧
    ((dmLists high low).2.getD i .nan = .nan ∨
      ∃ q, (dmLists high low).2.getD i .nan = .fin q ∧ 0 ≤ q) ∧
    ((dmLists high low).1.getD i .nan ≠ (dmLists high low).2.getD i .nan →
      (dmLists high low).1.getD i .nan = .fin 0 ∨
        (dmLists high low).2.getD i .nan = .fin 0) := by
  have hhi : i < high.length := by
    simp only [dmLists, List.length_zipWith, length_diffQ, List.length_map] at hi
    omega
  have hp := diffQ_pair_shape high low hlen i hhi
  have hd1 : (dmLists high low).1.getD i .nan =
      (((diffQ high)[i]?).bind
        (fun p => (((diffQ low).map PVal.neg)[i]?).map (dmPlusStep p))).getD .nan := by
    simp only [dmLists, List.getD_eq_getElem?_getD]
    rw [List.getElem?_zipWith']
    cases (diffQ high)[i]? <;> simp
  have hd2 : (dmLists high low).2.getD i .nan =
      (((diffQ high)[i]?).bind
        (fun p => (((diffQ low).map PVal.neg)[i]?).map (dmMinusStep p))).getD .nan := by
    simp only [dmLists, List.getD_eq_getElem?_getD]
    rw [List.getElem?_zipWith']
    cases (diffQ high)[i]? <;> simp
  rcases hp with ⟨hpn, hmn⟩ | ⟨a, b, hpa, hmb⟩
  · rw [hd1, hd2, hpn, hmn]
    refine ⟨Or.inl ?_, Or.inl ?_, fun hne => ?_⟩
    · simp [dmPlusStep, PVal.lt]
    · simp [dmPlusStep, dmMinusStep, PVal.lt]
    · exact absurd (by simp [dmPlusStep, dmMinusStep, PVal.lt]) hne
  · rw [hd1, hd2, hpa, hmb]
    have h := dmStep_fin_props a b
    refine ⟨Or.inr ?_, Or.inr ?_, fun hne => ?_⟩
    · simpa using h.1
    · simpa using h.2.1
    · have := h.2.2 (by simpa using hne)
      simpa using this

theorem c6_dm_zeroing_witness :
    (dmLists [1, 3] [5, 4]).1.getD 1 .nan = .fin 0 ∨
      (dmLists [1, 3] [5, 4]).2.getD 1 .nan = .fin 0 :=
  (c6_dm_zeroing [1, 3] [5, 4] rfl 1 (by decide)).2.2 (by decide)

/-- C2 counterexample: with a specification-valid configuration (every
period at least 1, positive threshold and multiplier) and bars satisfying
`low ≤ close ≤ high`, a confirmed BULLISH signal is emitted whose stop
loss and take profit both equal the entry price, so the strict straddle
`stop_loss < price < take_profit` fails. -/
theorem c2_counterexample :
    (generateSignal c2cfg initState "EURUSD" c2df c2df .asian 10).1 =
      some ⟨"EURUSD", "buy", .fin 1, .asian, 10, some (.fin 10), some (.fin 10), none,
        some ⟨.fin 0, .fin 100, "bullish", 2⟩⟩ ∧
    (∀ r ∈ c2df.rows, r.low ≤ r.close ∧ r.close ≤ r.high) ∧
    0 < c2cfg.adx_threshold ∧ 0 < c2cfg.atr_multiplier ∧ 1 ≤ c2cfg.atr_period ∧
    PVal.lt (.fin 10) (.fin 10) = false := by decide

/-- C3 counterexample: with `adx_period = 5` and H4 EMA periods 1 and 2,
a three-bar series has enough history for the EMA pair and its latest
fast EMA strictly exceeds the slow one, yet `_compute_trend_h4` returns
SIDEWAYS because its guard also counts `adx_period`. -/
theorem c3_counterexample :
    computeTrendH4 c3cfg c3df = .ok (.sideways, .fin 0, 0, 0, .fin 0) ∧
    max c3cfg.h4_ema_fast c3cfg.h4_ema_slow ≤ c3df.rows.length ∧
    classifyPerSpec c3cfg.h4_ema_fast c3cfg.h4_ema_slow (c3df.rows.map (·.close)) =
      .bullish :=
  ⟨by rfl, by decide, by decide⟩

theorem mem_zipWith_shape {α β γ : Type} (f : α → β → γ) :
    ∀ (as : List α) (bs : List β), ∀ y ∈ List.zipWith f as bs,
      ∃ a ∈ as, ∃ b ∈ bs, y = f a b := by
  intro as
  induction as with
  | nil => intro bs y hy; simp at hy
  | cons a tl ih =>
      intro bs y hy
      cases bs with
      | nil => simp at hy
      | cons b tlb =>
          simp only [List.zipWith, List.mem_cons] at hy
          rcases hy with h | h
          · exact ⟨a, by simp, b, by simp, h⟩
          · obtain ⟨a', ha, b', hb, he⟩ := ih tlb y h
            exact ⟨a', by simp [ha], b', by simp [hb], he⟩

theorem diffQ_mem_shape (xs : List ℚ) :
    ∀ x ∈ diffQ xs, x = PVal.nan ∨ ∃ a, x = .fin a := by
  cases xs with
  | nil => intro x hx; simp [diffQ] at hx
  | cons h t =>
      intro x hx
      simp only [diffQ, List.mem_cons] at hx
      rcases hx with h1 | h1
      · exact Or.inl h1
      · obtain ⟨a, _, b, _, he⟩ := mem_zipWith_shape _ t (h :: t) x h1
        exact Or.inr ⟨a - b, he⟩

theorem diffQ_neg_mem_shape (xs : List ℚ) :
    ∀ x ∈ (diffQ xs).map PVal.neg, x = PVal.nan ∨ ∃ a, x = .fin a := by
  intro x hx
  obtain ⟨y, hy, he⟩ := List.mem_map.mp hx
  rcases diffQ_mem_shape xs y hy with h | ⟨a, ha⟩
  · left; rw [← he, h]; rfl
  · right; exact ⟨-a, by rw [← he, ha]; rfl⟩

theorem dmPlusStep_shape (p m : PVal) (hp : p = PVal.nan ∨ ∃ a, p = .fin a)
    (hm : m = PVal.nan ∨ ∃ b, m = .fin b) :
    dmPlusStep p m = PVal.nan ∨ ∃ q, dmPlusStep p m = .fin q ∧ 0 ≤ q := by
  rcases hp with hp | ⟨a, hp⟩ <;> rcases hm with hm | ⟨b, hm⟩ <;> subst hp <;> subst hm
  · left; rfl
  · left; rfl
  · right
    by_cases ha : a < 0
    · exact ⟨0, by simp [dmPlusStep, PVal.lt, ha], le_refl 0⟩
    · exact ⟨a, by simp [dmPlusStep, PVal.lt, ha], le_of_not_lt ha⟩
  · rcases (dmStep_fin_props a b).1 with ⟨q, hq, hq0⟩
    exact Or.inr ⟨q, hq, hq0⟩

theorem dmMinusStep_shape (p m : PVal) (hp : p = PVal.nan ∨ ∃ a, p = .fin a)
    (hm : m = PVal.nan ∨ ∃ b, m = .fin b) :
    dmMinusStep p m = PVal.nan ∨ ∃ q, dmMinusStep p m = .fin q ∧ 0 ≤ q := by
  rcases hm with hm | ⟨b, hm⟩ <;> subst hm
  · left
    cases hdp : dmPlusStep p PVal.nan <;> simp [dmMinusStep, hdp, PVal.lt]
  · rcases hp with hp | ⟨a, hp⟩ <;> subst hp
    · right
      have hdp : dmPlusStep PVal.nan (.fin b) = PVal.nan := by
        simp [dmPlusStep, PVal.lt]
      by_cases hb : b < 0
      · exact ⟨0, by simp [dmMinusStep, hdp, PVal.lt, hb], le_refl 0⟩
      · exact ⟨b, by simp [dmMinusStep, hdp, PVal.lt, hb], le_of_not_lt hb⟩
    · rcases (dmStep_fin_props a b).2.1 with ⟨q, hq, hq0⟩
      exact Or.inr ⟨q, hq, hq0⟩

theorem trAux_shape (l : List ((ℚ × ℚ) × ℚ)) :
    ∀ (prev : PVal), (prev = PVal.nan ∨ ∃ c, prev = .fin c) →
      (∀ t ∈ l, t.1.2 ≤ t.1.1) →
      ∀ x ∈ trAux prev l, ∃ q, x = .fin q ∧ 0 ≤ q := by
  induction l with
  | nil => intro prev _ _ x hx; simp [trAux] at hx
  | cons t tl ih =>
      intro prev hprev hv x hx
      obtain ⟨⟨h, l⟩, c⟩ := t
      simp only [trAux, List.mem_cons] at hx
      rcases hx with hx | hx
      · have hhl : (0 : ℚ) ≤ h - l := by
          have := hv ((h, l), c) (by simp)
          simp at this
          linarith
        rcases hprev with hprev | ⟨pc, hprev⟩ <;> subst hprev
        · refine ⟨h - l, ?_, hhl⟩
          rw [hx]
          rfl
        · subst hx
          have e1 : ((PVal.fin h).sub (.fin pc)).abs = PVal.fin |h + -pc| := rfl
          have e2 : ((PVal.fin l).sub (.fin pc)).abs = PVal.fin |l + -pc| := rfl
          rw [e1, e2]
          by_cases h1 : PVal.lt (.fin (h - l)) (.fin |h + -pc|) = true
          · by_cases h2 : PVal.lt (.fin |h + -pc|) (.fin |l + -pc|) = true
            · exact ⟨|l + -pc|, by simp [PVal.maxSkip, h1, h2], abs_nonneg _⟩
            · exact ⟨|h + -pc|, by simp [PVal.maxSkip, h1, h2], abs_nonneg _⟩
          · by_cases h2 : PVal.lt (.fin (h - l)) (.fin |l + -pc|) = true
            · exact ⟨|l + -pc|, by simp [PVal.maxSkip, h1, h2], abs_nonneg _⟩
            · exact ⟨h - l, by simp [PVal.maxSkip, h1, h2], hhl⟩
      · exact ih (.fin c) (Or.inr ⟨c, rfl⟩) (fun u hu => hv u (by simp [hu])) x hx

theorem sumP_lb (lo : ℚ) :
    ∀ l : List PVal, (∀ x ∈ l, ∃ q, x = .fin q ∧ lo ≤ q) →
      ∃ s, sumP l = .fin s ∧ lo * l.length ≤ s := by
  intro l
  induction l with
  | nil => intro _; exact ⟨0, rfl, by simp⟩
  | cons x t ih =>
      intro h
      obtain ⟨q, hq, hlq⟩ := h x (by simp)
      obtain ⟨s, hs, hls⟩ := ih (fun y hy => h y (by simp [hy]))
      refine ⟨q + s, ?_, ?_⟩
      · simp [sumP, hq, hs, PVal.add]
      · have : ((x :: t).length : ℚ) = (t.length : ℚ) + 1 := by
          simp
        rw [this]
        nlinarith [hls, hlq]

theorem sumP_ub (hi : ℚ) :
    ∀ l : List PVal, (∀ x ∈ l, ∃ q, x = .fin q ∧ q ≤ hi) →
      ∃ s, sumP l = .fin s ∧ s ≤ hi * l.length := by
  intro l
  induction l with
  | nil => intro _; exact ⟨0, rfl, by simp⟩
  | cons x t ih =>
      intro h
      obtain ⟨q, hq, hlq⟩ := h x (by simp)
      obtain ⟨s, hs, hls⟩ := ih (fun y hy => h y (by simp [hy]))
      refine ⟨q + s, ?_, ?_⟩
      · simp [sumP, hq, hs, PVal.add]
      · have : ((x :: t).length : ℚ) = (t.length : ℚ) + 1 := by
          simp
        rw [this]
        nlinarith [hls, hlq]

theorem meanP_lb (lo : ℚ) (l : List PVal) (hne : l ≠ [])
    (h : ∀ x ∈ l, ∃ q, x = .fin q ∧ lo ≤ q) :
    ∃ q, meanP l = .fin q ∧ lo ≤ q := by
  have hnan : l.any PVal.isNan = false := by
    rw [List.any_eq_false]
    intro x hx
    obtain ⟨q, hq, _⟩ := h x hx
    simp [hq, PVal.isNan]
  obtain ⟨s, hs, hls⟩ := sumP_lb lo l h
  have hlen : (0 : ℚ) < l.length := by
    have : 0 < l.length := List.length_pos.mpr hne
    exact_mod_cast this
  refine ⟨s / l.length, ?_, ?_⟩
  · simp only [meanP, hnan, Bool.false_eq_true, if_false, hs, PVal.div]
    rw [if_neg (by exact_mod_cast hlen.ne')]
  · rw [le_div_iff₀ hlen]
    linarith [hls]

theorem meanP_ub (hi : ℚ) (l : List PVal) (hne : l ≠ [])
    (h : ∀ x ∈ l, ∃ q, x = .fin q ∧ q ≤ hi) :
    ∃ q, meanP l = .fin q ∧ q ≤ hi := by
  have hnan : l.any PVal.isNan = false := by
    rw [List.any_eq_false]
    intro x hx
    obtain ⟨q, hq, _⟩ := h x hx
    simp [hq, PVal.isNan]
  obtain ⟨s, hs, hls⟩ := sumP_ub hi l h
  have hlen : (0 : ℚ) < l.length := by
    have : 0 < l.length := List.length_pos.mpr hne
    exact_mod_cast this
  refine ⟨s / l.length, ?_, ?_⟩
  · simp only [meanP, hnan, Bool.false_eq_true, if_false, hs, PVal.div]
    rw [if_neg (by exact_mod_cast hlen.ne')]
  · rw [div_le_iff₀ hlen]
    linarith [hls]

theorem rollingMeanP_shape_lb (lo : ℚ) (p : ℕ) (hp : 1 ≤ p) (xs : List PVal)
    (h : ∀ x ∈ xs, x = PVal.nan ∨ ∃ q, x = .fin q ∧ lo ≤ q) :
    ∀ y ∈ rollingMeanP p xs, y = PVal.nan ∨ ∃ q, y = .fin q ∧ lo ≤ q := by
  intro y hy
  simp only [rollingMeanP, List.mem_map, List.mem_range] at hy
  obtain ⟨i, hi, hv⟩ := hy
  by_cases hc : i + 1 < p
  · left; rw [← hv, if_pos hc]
  · rw [← hv, if_neg hc]
    set w := (xs.take (i + 1)).drop (i + 1 - p) with hw
    by_cases hwn : w.any PVal.isNan
    · left; simp [meanP, hwn]
    · right
      have hsub : ∀ x ∈ w, x ∈ xs := by
        intro x hx
        exact List.mem_of_mem_take (List.mem_of_mem_drop hx)
      have hfin : ∀ x ∈ w, ∃ q, x = .fin q ∧ lo ≤ q := by
        intro x hx
        rcases h x (hsub x hx) with hn | hf
        · exfalso
          have hfalse : w.any PVal.isNan = false := Bool.eq_false_iff.mpr hwn
          rw [List.any_eq_false] at hfalse
          have := hfalse x hx
          rw [hn] at this
          simp [PVal.isNan] at this
        · exact hf
      have hlen : w.length = p := by
        rw [hw]
        rw [List.length_drop, List.length_take]
        omega
      have hne : w ≠ [] := by
        intro hcon
        rw [hcon] at hlen
        simp at hlen
        omega
      exact meanP_lb lo w hne hfin

theorem rollingMeanP_shape_bounds (lo hi : ℚ) (p : ℕ) (hp : 1 ≤ p) (xs : List PVal)
    (h : ∀ x ∈ xs, x = PVal.nan ∨ ∃ q, x = .fin q ∧ lo ≤ q ∧ q ≤ hi) :
    ∀ y ∈ rollingMeanP p xs, y = PVal.nan ∨ ∃ q, y = .fin q ∧ lo ≤ q ∧ q ≤ hi := by
  intro y hy
  simp only [rollingMeanP, List.mem_map, List.mem_range] at hy
  obtain ⟨i, hilt, hv⟩ := hy
  by_cases hc : i + 1 < p
  · left; rw [← hv, if_pos hc]
  · rw [← hv, if_neg hc]
    set w := (xs.take (i + 1)).drop (i + 1 - p) with hw
    by_cases hwn : w.any PVal.isNan
    · left; simp [meanP, hwn]
    · right
      have hsub : ∀ x ∈ w, x ∈ xs := by
        intro x hx
        exact List.mem_of_mem_take (List.mem_of_mem_drop hx)
      have hfin : ∀ x ∈ w, ∃ q, x = .fin q ∧ lo ≤ q ∧ q ≤ hi := by
        intro x hx
        rcases h x (hsub x hx) with hn | hf
        · exfalso
          have hfalse : w.any PVal.isNan = false := Bool.eq_false_iff.mpr hwn
          rw [List.any_eq_false] at hfalse
          have := hfalse x hx
          rw [hn] at this
          simp [PVal.isNan] at this
        · exact hf
      have hlen : w.length = p := by
        rw [hw]
        rw [List.length_drop, List.length_take]
        omega
      have hne : w ≠ [] := by
        intro hcon
        rw [hcon] at hlen
        simp at hlen
        omega
      obtain ⟨q1, hq1, hl1⟩ := meanP_lb lo w hne (fun x hx => by
        obtain ⟨q, hq, hlo, _⟩ := hfin x hx
        exact ⟨q, hq, hlo⟩)
      obtain ⟨q2, hq2, hl2⟩ := meanP_ub hi w hne (fun x hx => by
        obtain ⟨q, hq, _, hhi⟩ := hfin x hx
        exact ⟨q, hq, hhi⟩)
      rw [hq1] at hq2
      refine ⟨q1, hq1, hl1, ?_⟩
      have : q1 = q2 := by
        injection hq2
      rw [this]
      exact hl2

theorem except_bind_ok_iff {ε α β : Type} (x : Except ε α) (f : α → Except ε β) (b : β) :
    (x >>= f) = .ok b ↔ ∃ a, x = .ok a ∧ f a = .ok b := by
  cases x <;> simp [Bind.bind, Except.bind]

theorem di_entry_shape (d a : PVal)
    (hd : d = PVal.nan ∨ ∃ q, d = .fin q ∧ 0 ≤ q)
    (ha : a = PVal.nan ∨ ∃ q, a = .fin q ∧ 0 ≤ q) :
    (d.div a).mul (.fin 100) = PVal.nan ∨ (d.div a).mul (.fin 100) = PVal.pinf ∨
      ∃ q, (d.div a).mul (.fin 100) = .fin q ∧ 0 ≤ q := by
  rcases hd with hd | ⟨x, hx, hx0⟩
  · left; subst hd; cases a <;> rfl
  · subst hx
    rcases ha with ha | ⟨y, hy, hy0⟩
    · left; subst ha; rfl
    · subst hy
      by_cases hyz : y = 0
      · by_cases hxz : x = 0
        · left; simp [PVal.div, hyz, hxz, PVal.mul]
        · right; left
          have hxpos : 0 < x := lt_of_le_of_ne hx0 (Ne.symm hxz)
          simp [PVal.div, hyz, hxz, hxpos, PVal.mul]
      · right; right
        refine ⟨x / y * 100, ?_, ?_⟩
        · simp [PVal.div, hyz, PVal.mul]
        · positivity

theorem dx_entry_shape (p m : PVal)
    (hp : p = PVal.nan ∨ p = PVal.pinf ∨ ∃ q, p = .fin q ∧ 0 ≤ q)
    (hm : m = PVal.nan ∨ m = PVal.pinf ∨ ∃ q, m = .fin q ∧ 0 ≤ q) :
    (((p.sub m).abs).div (p.add m)).mul (.fin 100) = PVal.nan ∨
      ∃ q, (((p.sub m).abs).div (p.add m)).mul (.fin 100) = .fin q ∧ 0 ≤ q ∧ q ≤ 100 := by
  rcases hp with hp | hp | ⟨x, hx, hx0⟩
  · left; subst hp; cases m <;> rfl
  · subst hp
    rcases hm with hm | hm | ⟨y, hy, hy0⟩
    · left; subst hm; rfl
    · left; subst hm; rfl
    · left; subst hy; rfl
  · subst hx
    rcases hm with hm | hm | ⟨y, hy, hy0⟩
    · left; subst hm; rfl
    · left; subst hm; rfl
    · subst hy
      by_cases hxy : x + y = 0
      · left
        have hx' : x = 0 := by linarith
        have hy' : y = 0 := by linarith
        subst hx'; subst hy'
        simp [PVal.sub, PVal.add, PVal.neg, PVal.abs, PVal.div, PVal.mul]
      · right
        have hxy0 : 0 < x + y := lt_of_le_of_ne (by linarith) (Ne.symm hxy)
        have habs : |x + -y| ≤ x + y := by
          rw [abs_le]
          constructor <;> linarith
        refine ⟨|x + -y| / (x + y) * 100, ?_, ?_, ?_⟩
        · have e1 : (PVal.fin x).sub (.fin y) = .fin (x + -y) := rfl
          have e2 : (PVal.fin x).add (.fin y) = .fin (x + y) := rfl
          rw [e1, e2]
          have e3 : (PVal.fin (x + -y)).abs = .fin |x + -y| := rfl
          rw [e3]
          simp [PVal.div, hxy, PVal.mul]
        · positivity
        · have hdiv : |x + -y| / (x + y) ≤ 1 := by
            rw [div_le_one hxy0]
            exact habs
          nlinarith [abs_nonneg (x + -y)]

theorem fillna0_bounds (lo hi : ℚ) (h0 : lo ≤ 0) (h0' : 0 ≤ hi) (xs : List PVal)
    (h : ∀ x ∈ xs, x = PVal.nan ∨ ∃ q, x = .fin q ∧ lo ≤ q ∧ q ≤ hi) :
    ∀ y ∈ fillna0 xs, ∃ q, y = .fin q ∧ lo ≤ q ∧ q ≤ hi := by
  intro y hy
  obtain ⟨x, hx, he⟩ := List.mem_map.mp hy
  rcases h x hx with hn | ⟨q, hq, hlo, hhi⟩
  · refine ⟨0, ?_, h0, h0'⟩
    rw [← he, hn]
    simp
  · refine ⟨q, ?_, hlo, hhi⟩
    rw [← he, hq]
    simp

theorem trueRange_rows_shape (rows : List OhlcRow) (hval : ∀ r ∈ rows, r.low ≤ r.high) :
    ∀ x ∈ trueRangeList (rows.map (·.high)) (rows.map (·.low)) (rows.map (·.close)),
      ∃ q, x = .fin q ∧ 0 ≤ q := by
  have hz : ((rows.map (·.high)).zip (rows.map (·.low))).zip (rows.map (·.close)) =
      rows.map (fun r => ((r.high, r.low), r.close)) := by
    rw [List.zip_map', List.zip_map']
  intro x hx
  rw [trueRangeList, hz] at hx
  refine trAux_shape _ PVal.nan (Or.inl rfl) ?_ x hx
  intro t ht
  obtain ⟨r, hr, he⟩ := List.mem_map.mp ht
  rw [← he]
  exact hval r hr

theorem dmLists_mem_shape (high low : List ℚ) :
    (∀ y ∈ (dmLists high low).1, y = PVal.nan ∨ ∃ q, y = .fin q ∧ 0 ≤ q) ∧
    (∀ y ∈ (dmLists high low).2, y = PVal.nan ∨ ∃ q, y = .fin q ∧ 0 ≤ q) := by
  constructor
  · intro y hy
    obtain ⟨p, hpmem, m, hmmem, he⟩ :=
      mem_zipWith_shape dmPlusStep (diffQ high) ((diffQ low).map PVal.neg) y hy
    rw [he]
    exact dmPlusStep_shape p m (diffQ_mem_shape high p hpmem)
      (diffQ_neg_mem_shape low m hmmem)
  · intro y hy
    obtain ⟨p, hpmem, m, hmmem, he⟩ :=
      mem_zipWith_shape dmMinusStep (diffQ high) ((diffQ low).map PVal.neg) y hy
    rw [he]
    exact dmMinusStep_shape p m (diffQ_mem_shape high p hpmem)
      (diffQ_neg_mem_shape low m hmmem)

/-- C5: for every valid OHLC series (each bar has `low ≤ high`) and every
period at least 1, every value of the strength oscillator returned by
`_calculate_adx` after the zero-fill is a finite number in [0, 100]. -/
theorem c5_adx_bounded (period : ℕ) (df : DataFrame) (out : List PVal)
    (hper : 1 ≤ period)
    (hval : ∀ r ∈ df.rows, r.low ≤ r.high)
    (h : calculateAdx period df = .ok out) :
    ∀ v ∈ out, PVal.finBetween 0 100 v = true := by
  unfold calculateAdx at h
  rw [except_bind_ok_iff] at h
  obtain ⟨high, hH, h⟩ := h
  rw [except_bind_ok_iff] at h
  obtain ⟨low, hL, h⟩ := h
  rw [except_bind_ok_iff] at h
  obtain ⟨close, hC, h⟩ := h
  have hhigh : high = df.rows.map (·.high) := by
    rw [DataFrame.getHigh] at hH
    by_cases hb : df.hasHighCol
    · rw [if_pos hb] at hH
      exact (Except.ok.inj hH).symm
    · rw [if_neg hb] at hH
      exact absurd hH (by simp)
  have hlow : low = df.rows.map (·.low) := by
    rw [DataFrame.getLow] at hL
    by_cases hb : df.hasLowCol
    · rw [if_pos hb] at hL
      exact (Except.ok.inj hL).symm
    · rw [if_neg hb] at hL
      exact absurd hL (by simp)
  have hclose : close = df.rows.map (·.close) := by
    rw [DataFrame.getClose] at hC
    by_cases hb : df.hasCloseCol
    · rw [if_pos hb] at hC
      exact (Except.ok.inj hC).symm
    · rw [if_neg hb] at hC
      exact absurd hC (by simp)
  rw [if_neg (by omega)] at h
  simp only at h
  have hout := (Except.ok.inj h).symm
  subst hout
  subst hhigh
  subst hlow
  subst hclose
  intro v hv
  -- shapes along the indicator chain
  have htr : ∀ x ∈ trueRangeList (df.rows.map (·.high)) (df.rows.map (·.low))
      (df.rows.map (·.close)), x = PVal.nan ∨ ∃ q, x = .fin q ∧ 0 ≤ q := by
    intro x hx
    exact Or.inr (trueRange_rows_shape df.rows hval x hx)
  have hatr : ∀ x ∈ rollingMeanP period (trueRangeList (df.rows.map (·.high))
      (df.rows.map (·.low)) (df.rows.map (·.close))),
      x = PVal.nan ∨ ∃ q, x = .fin q ∧ 0 ≤ q :=
    rollingMeanP_shape_lb 0 period hper _ htr
  have hdmp : ∀ x ∈ rollingMeanP period
      (dmLists (df.rows.map (·.high)) (df.rows.map (·.low))).1,
      x = PVal.nan ∨ ∃ q, x = .fin q ∧ 0 ≤ q :=
    rollingMeanP_shape_lb 0 period hper _
      (dmLists_mem_shape (df.rows.map (·.high)) (df.rows.map (·.low))).1
  have hdmm : ∀ x ∈ rollingMeanP period
      (dmLists (df.rows.map (·.high)) (df.rows.map (·.low))).2,
      x = PVal.nan ∨ ∃ q, x = .fin q ∧ 0 ≤ q :=
    rollingMeanP_shape_lb 0 period hper _
      (dmLists_mem_shape (df.rows.map (·.high)) (df.rows.map (·.low))).2
  have hdip : ∀ x ∈ List.zipWith (fun d a => (d.div a).mul (.fin 100))
      (rollingMeanP period (dmLists (df.rows.map (·.high)) (df.rows.map (·.low))).1)
      (rollingMeanP period (trueRangeList (df.rows.map (·.high)) (df.rows.map (·.low))
        (df.rows.map (·.close)))),
      x = PVal.nan ∨ x = PVal.pinf ∨ ∃ q, x = .fin q ∧ 0 ≤ q := by
    intro x hx
    obtain ⟨d, hd, a, ha, he⟩ := mem_zipWith_shape _ _ _ x hx
    rw [he]
    exact di_entry_shape d a (hdmp d hd) (hatr a ha)
  have hdim : ∀ x ∈ List.zipWith (fun d a => (d.div a).mul (.fin 100))
      (rollingMeanP period (dmLists (df.rows.map (·.high)) (df.rows.map (·.low))).2)
      (rollingMeanP period (trueRangeList (df.rows.map (·.high)) (df.rows.map (·.low))
        (df.rows.map (·.close)))),
      x = PVal.nan ∨ x = PVal.pinf ∨ ∃ q, x = .fin q ∧ 0 ≤ q := by
    intro x hx
    obtain ⟨d, hd, a, ha, he⟩ := mem_zipWith_shape _ _ _ x hx
    rw [he]
    exact di_entry_shape d a (hdmm d hd) (hatr a ha)
  have hdx : ∀ x ∈ List.zipWith
      (fun p m => (((p.sub m).abs).div (p.add m)).mul (.fin 100))
      (List.zipWith (fun d a => (d.div a).mul (.fin 100))
        (rollingMeanP period (dmLists (df.rows.map (·.high)) (df.rows.map (·.low))).1)
        (rollingMeanP period (trueRangeList (df.rows.map (·.high)) (df.rows.map (·.low))
          (df.rows.map (·.close)))))
      (List.zipWith (fun d a => (d.div a).mul (.fin 100))
        (rollingMeanP period (dmLists (df.rows.map (·.high)) (df.rows.map (·.low))).2)
        (rollingMeanP period (trueRangeList (df.rows.map (·.high)) (df.rows.map (·.low))
          (df.rows.map (·.close))))),
      x = PVal.nan ∨ ∃ q, x = .fin q ∧ 0 ≤ q ∧ q ≤ 100 := by
    intro x hx
    obtain ⟨p, hple, m, hmle, he⟩ := mem_zipWith_shape _ _ _ x hx
    rw [he]
    exact dx_entry_shape p m (hdip p hple) (hdim m hmle)
  have hadx := rollingMeanP_shape_bounds 0 100 period hper _ hdx
  obtain ⟨q, hq, hq0, hq100⟩ :=
    fillna0_bounds 0 100 (le_refl 0) (by norm_num) _ hadx v hv
  rw [hq]
  simp [PVal.finBetween, hq0, hq100]

theorem c5_adx_bounded_witness : PVal.finBetween 0 100 (PVal.fin 100) = true :=
  c5_adx_bounded 2 c2df [.fin 0, .fin 0, .fin 0, .fin 100, .fin 100]
    (by decide) (by decide) (by rfl) (.fin 100) (by decide)

theorem span_decay_nonneg (span : ℕ) (h : 1 ≤ span) :
    0 ≤ ((span : ℚ) - 1) / ((span : ℚ) + 1) := by
  have h1 : (1 : ℚ) ≤ (span : ℚ) := by exact_mod_cast h
  have h2 : (0 : ℚ) < (span : ℚ) + 1 := by linarith
  exact div_nonneg (by linarith) (le_of_lt h2)

theorem ewmAccRev_fin_nonneg (r : ℚ) (hr : 0 ≤ r) :
    ∀ l : List PVal, (∀ x ∈ l, ∃ q, x = .fin q ∧ 0 ≤ q) →
      (∃ s, (ewmAccRev r l).1 = .fin s ∧ 0 ≤ s) ∧ 0 ≤ (ewmAccRev r l).2 ∧
        (l ≠ [] → 1 ≤ (ewmAccRev r l).2) := by
  intro l
  induction l with
  | nil =>
      intro _
      exact ⟨⟨0, rfl, le_refl 0⟩, le_refl 0, fun hne => absurd rfl hne⟩
  | cons x t ih =>
      intro h
      obtain ⟨q, hq, hq0⟩ := h x (by simp)
      obtain ⟨⟨s, hs, hs0⟩, hd0, _⟩ := ih (fun y hy => h y (by simp [hy]))
      subst hq
      have hcons : ewmAccRev r (PVal.fin q :: t) =
          ((PVal.fin q).add ((PVal.fin r).mul (ewmAccRev r t).1),
            1 + r * (ewmAccRev r t).2) := rfl
      rw [hcons]
      have hrs : 0 ≤ r * s := mul_nonneg hr hs0
      have hrd : 0 ≤ r * (ewmAccRev r t).2 := mul_nonneg hr hd0
      refine ⟨⟨q + r * s, ?_, by linarith⟩, ?_, fun _ => ?_⟩
      · simp [hs, PVal.mul, PVal.add]
      · simp only
        linarith
      · simp only
        linarith

theorem ewm_fillna_nonneg (span : ℕ) (hspan : 1 ≤ span) (xs : List PVal)
    (hxs : ∀ x ∈ xs, ∃ q, x = .fin q ∧ 0 ≤ q) :
    ∀ v ∈ fillna0 (ewmMeanP span xs), ∃ t, v = .fin t ∧ 0 ≤ t := by
  intro v hv
  obtain ⟨u, hu, heq⟩ := List.mem_map.mp hv
  have hr := span_decay_nonneg span hspan
  simp only [ewmMeanP, List.mem_map, List.mem_range] at hu
  obtain ⟨i, hilt, hval⟩ := hu
  set w := (xs.take (i + 1)).reverse with hw
  have hwmem : ∀ x ∈ w, ∃ q, x = .fin q ∧ 0 ≤ q := by
    intro x hx
    rw [hw, List.mem_reverse] at hx
    exact hxs x (List.mem_of_mem_take hx)
  have hwne : w ≠ [] := by
    rw [hw]
    simp only [ne_eq, List.reverse_eq_nil_iff]
    intro hcon
    have hlen2 : min (i + 1) xs.length = 0 := by
      have h' := congrArg List.length hcon
      simp only [List.length_take, List.length_nil] at h'
      exact h'
    omega
  obtain ⟨⟨s, hs, hs0⟩, _, hden⟩ :=
    ewmAccRev_fin_nonneg _ hr w hwmem
  have hd1 := hden hwne
  have hdne : (ewmAccRev (((span : ℚ) - 1) / ((span : ℚ) + 1)) w).2 ≠ 0 := by linarith
  rw [← hval] at heq
  rw [if_neg hdne, hs] at heq
  have hdpos : (0 : ℚ) < (ewmAccRev (((span : ℚ) - 1) / ((span : ℚ) + 1)) w).2 := by
    linarith
  refine ⟨s / (ewmAccRev (((span : ℚ) - 1) / ((span : ℚ) + 1)) w).2, ?_, ?_⟩
  · rw [← heq]
    simp [PVal.div, hdne]
  · exact div_nonneg hs0 (le_of_lt hdpos)

theorem calculateAtr_ok_shape (period : ℕ) (df : DataFrame) (out : List PVal)
    (hval : ∀ r ∈ df.rows, r.low ≤ r.high)
    (h : calculateAtr period df = .ok out) :
    ∀ v ∈ out, ∃ t, v = .fin t ∧ 0 ≤ t := by
  unfold calculateAtr at h
  rw [except_bind_ok_iff] at h
  obtain ⟨high, hH, h⟩ := h
  rw [except_bind_ok_iff] at h
  obtain ⟨low, hL, h⟩ := h
  rw [except_bind_ok_iff] at h
  obtain ⟨close, hC, h⟩ := h
  have hhigh : high = df.rows.map (·.high) := by
    rw [DataFrame.getHigh] at hH
    by_cases hb : df.hasHighCol
    · rw [if_pos hb] at hH; exact (Except.ok.inj hH).symm
    · rw [if_neg hb] at hH; exact absurd hH (by simp)
  have hlow : low = df.rows.map (·.low) := by
    rw [DataFrame.getLow] at hL
    by_cases hb : df.hasLowCol
    · rw [if_pos hb] at hL; exact (Except.ok.inj hL).symm
    · rw [if_neg hb] at hL; exact absurd hL (by simp)
  have hclose : close = df.rows.map (·.close) := by
    rw [DataFrame.getClose] at hC
    by_cases hb : df.hasCloseCol
    · rw [if_pos hb] at hC; exact (Except.ok.inj hC).symm
    · rw [if_neg hb] at hC; exact absurd hC (by simp)
  by_cases hp : period = 0
  · rw [if_pos hp] at h
    exact absurd h (by simp)
  · rw [if_neg hp] at h
    simp only at h
    have hout := (Except.ok.inj h).symm
    subst hout
    subst hhigh
    subst hlow
    subst hclose
    exact ewm_fillna_nonneg period (by omega) _
      (trueRange_rows_shape df.rows hval)

theorem computeTrendH4_atr_shape (cfg : StrategyConfig) (df : DataFrame)
    (t : TrendDirection × PVal × ℚ × ℚ × PVal)
    (hval : ∀ r ∈ df.rows, r.low ≤ r.high)
    (h : computeTrendH4 cfg df = .ok t) :
    ∃ q, t.2.2.2.2 = .fin q ∧ 0 ≤ q := by
  unfold computeTrendH4 at h
  by_cases hg : df.rows.length < max (max cfg.h4_ema_fast cfg.h4_ema_slow) cfg.adx_period
  · rw [if_pos hg] at h
    have := (Except.ok.inj h).symm
    subst this
    exact ⟨0, rfl, le_refl 0⟩
  · rw [if_neg hg] at h
    rw [except_bind_ok_iff] at h
    obtain ⟨close, hC, h⟩ := h
    rw [except_bind_ok_iff] at h
    obtain ⟨emaF, hEF, h⟩ := h
    rw [except_bind_ok_iff] at h
    obtain ⟨emaS, hES, h⟩ := h
    rw [except_bind_ok_iff] at h
    obtain ⟨adxList, hAdx, h⟩ := h
    rw [except_bind_ok_iff] at h
    obtain ⟨atrList, hAtr, h⟩ := h
    rw [except_bind_ok_iff] at h
    obtain ⟨latestF, hLF, h⟩ := h
    rw [except_bind_ok_iff] at h
    obtain ⟨latestS, hLS, h⟩ := h
    simp only at h
    have ht := (Except.ok.inj h).symm
    subst ht
    simp only
    cases hlast : atrList.getLast? with
    | none => exact ⟨0, by simp [hlast], le_refl 0⟩
    | some v =>
        have hv := calculateAtr_ok_shape cfg.atr_period df atrList hval hAtr v
          (List.mem_of_getLast?_eq_some hlast)
        obtain ⟨q, hq, hq0⟩ := hv
        exact ⟨q, by simp [hlast, hq], hq0⟩

theorem analyzeTrend_ok_inv (cfg : StrategyConfig) (d1 h4 : DataFrame) (a : TrendAnalysis)
    (h : analyzeTrend cfg d1 h4 = .ok a) :
    ∃ d1t t, computeTrendD1 cfg d1 = .ok d1t ∧ computeTrendH4 cfg h4 = .ok t ∧
      a = ⟨d1t, t.1, t.2.1, t.2.2.1, t.2.2.2.1, t.2.2.2.2,
        isTrendConfirmed cfg d1t t.1 t.2.1⟩ := by
  unfold analyzeTrend at h
  rw [except_bind_ok_iff] at h
  obtain ⟨d1t, hd1, h⟩ := h
  rw [except_bind_ok_iff] at h
  obtain ⟨t, ht, h⟩ := h
  simp only at h
  exact ⟨d1t, t, hd1, ht, (Except.ok.inj h).symm⟩

theorem generateSignal_some_inv (cfg : StrategyConfig) (st : StrategyState)
    (symbol : String) (d1 h4 : DataFrame) (session : SessionType) (price : ℚ)
    (sig : SignalData) (st2 : StrategyState)
    (h : generateSignal cfg st symbol d1 h4 session price = (some sig, st2)) :
    ∃ a, analyzeTrend cfg d1 h4 = .ok a ∧ a.trend_confirmation = true ∧
      sig = createSignal cfg symbol a.d1_trend session price a.atr_value a.adx_strength := by
  unfold generateSignal at h
  cases ha : analyzeTrend cfg d1 h4 with
  | error e =>
      rw [ha] at h
      simp at h
  | ok a =>
      rw [ha] at h
      simp only at h
      by_cases hc : a.trend_confirmation
      · rw [if_pos hc] at h
        have hfst := congrArg Prod.fst h
        simp only at hfst
        exact ⟨a, rfl, hc, (Option.some.inj hfst).symm⟩
      · rw [if_neg hc] at h
        have hfst := congrArg Prod.fst h
        simp at hfst

/-- C2 amended: for every signal emitted by `generate_signal` on an H4
series whose bars satisfy `low ≤ high` and a nonnegative multiplier, the
risk levels satisfy the weak straddle `stop_loss ≤ price ≤ take_profit`
for a buy (reversed for a sell) with the exact 2:1 reward:risk relation,
and the inequalities are strict whenever the stop does not collapse onto
the price; the collapse `stop_loss = price = take_profit` is possible for
a confirmed signal because the risk metric can be 0 (see
`c2_counterexample`). -/
theorem c2_risk_levels (cfg : StrategyConfig) (st st2 : StrategyState) (symbol : String)
    (d1 h4 : DataFrame) (session : SessionType) (price : ℚ) (sig : SignalData)
    (hval : ∀ r ∈ h4.rows, r.low ≤ r.high)
    (hm : 0 ≤ cfg.atr_multiplier)
    (h : generateSignal cfg st symbol d1 h4 session price = (some sig, st2)) :
    (sig.signal_type = "buy" →
      PVal.le (sig.stop_loss.getD .nan) (.fin price) = true ∧
      PVal.le (.fin price) (sig.take_profit.getD .nan) = true ∧
      (sig.take_profit.getD .nan).sub (.fin price) =
        (PVal.fin 2).mul ((PVal.fin price).sub (sig.stop_loss.getD .nan)) ∧
      (sig.stop_loss.getD .nan ≠ .fin price →
        PVal.lt (sig.stop_loss.getD .nan) (.fin price) = true ∧
        PVal.lt (.fin price) (sig.take_profit.getD .nan) = true)) ∧
    (sig.signal_type = "sell" →
      PVal.le (.fin price) (sig.stop_loss.getD .nan) = true ∧
      PVal.le (sig.take_profit.getD .nan) (.fin price) = true ∧
      (PVal.fin price).sub (sig.take_profit.getD .nan) =
        (PVal.fin 2).mul ((sig.stop_loss.getD .nan).sub (.fin price)) ∧
      (sig.stop_loss.getD .nan ≠ .fin price →
        PVal.lt (.fin price) (sig.stop_loss.getD .nan) = true ∧
        PVal.lt (sig.take_profit.getD .nan) (.fin price) = true)) := by
  obtain ⟨a, ha, hconf, hsig⟩ :=
    generateSignal_some_inv cfg st symbol d1 h4 session price sig st2 h
  obtain ⟨d1t, t, hd1, ht, haval⟩ := analyzeTrend_ok_inv cfg d1 h4 a ha
  obtain ⟨tv, htv, htv0⟩ := computeTrendH4_atr_shape cfg h4 t hval ht
  have hatr : a.atr_value = .fin tv := by rw [haval]; exact htv
  subst hsig
  rw [hatr]
  set m := cfg.atr_multiplier with hmdef
  have ham : 0 ≤ tv * m := mul_nonneg htv0 hm
  by_cases htr : a.d1_trend = TrendDirection.bullish
  · constructor
    · intro _
      have hsl : (createSignal cfg symbol a.d1_trend session price (.fin tv)
          a.adx_strength).stop_loss = some (.fin (price + -(tv * m))) := by
        simp [createSignal, htr, PVal.mul, PVal.sub, PVal.neg, PVal.add]
      have htp : (createSignal cfg symbol a.d1_trend session price (.fin tv)
          a.adx_strength).take_profit = some (.fin (price + tv * m * 2)) := by
        simp [createSignal, htr, PVal.mul, PVal.sub, PVal.neg, PVal.add]
      rw [hsl, htp]
      simp only [Option.getD_some]
      refine ⟨?_, ?_, ?_, ?_⟩
      · simp [PVal.le]
        linarith
      · simp [PVal.le]
        linarith
      · simp [PVal.sub, PVal.neg, PVal.add, PVal.mul]
        ring
      · intro hne
        have hne' : tv * m ≠ 0 := by
          intro hz
          apply hne
          rw [hz]
          norm_num
        have hpos : 0 < tv * m := lt_of_le_of_ne ham (Ne.symm hne')
        constructor
        · simp [PVal.lt]
          linarith
        · simp [PVal.lt]
          linarith
    · intro hsell
      exfalso
      have : (createSignal cfg symbol a.d1_trend session price (.fin tv)
          a.adx_strength).signal_type = "buy" := by
        simp [createSignal, htr]
      rw [this] at hsell
      exact absurd hsell (by decide)
  · constructor
    · intro hbuy
      exfalso
      have : (createSignal cfg symbol a.d1_trend session price (.fin tv)
          a.adx_strength).signal_type = "sell" := by
        simp [createSignal, htr]
      rw [this] at hbuy
      exact absurd hbuy (by decide)
    · intro _
      have hsl : (createSignal cfg symbol a.d1_trend session price (.fin tv)
          a.adx_strength).stop_loss = some (.fin (price + tv * m)) := by
        simp [createSignal, htr, PVal.mul, PVal.sub, PVal.neg, PVal.add]
      have htp : (createSignal cfg symbol a.d1_trend session price (.fin tv)
          a.adx_strength).take_profit = some (.fin (price + -(tv * m * 2))) := by
        simp [createSignal, htr, PVal.mul, PVal.sub, PVal.neg, PVal.add]
      rw [hsl, htp]
      simp only [Option.getD_some]
      refine ⟨?_, ?_, ?_, ?_⟩
      · simp [PVal.le]
        linarith
      · simp [PVal.le]
        linarith
      · simp [PVal.sub, PVal.neg, PVal.add, PVal.mul]
        ring
      · intro hne
        have hne' : tv * m ≠ 0 := by
          intro hz
          apply hne
          rw [hz]
          norm_num
        have hpos : 0 < tv * m := lt_of_le_of_ne ham (Ne.symm hne')
        constructor
        · simp [PVal.lt]
          linarith
        · simp [PVal.lt]
          linarith

theorem c2_risk_levels_witness :
    PVal.lt (.fin 6) (.fin 10) = true ∧ PVal.lt (.fin 10) (.fin 18) = true :=
  (c2_risk_levels cwcfg initState
      ⟨[], [("AUDUSD", ⟨.bullish, .bullish, .fin 100, 5, 547/121, .fin 2, true⟩)]⟩
      "AUDUSD" cwdf cwdf .overlap 10
      ⟨"AUDUSD", "buy", .fin 1, .overlap, 10, some (.fin 6), some (.fin 18), none,
        some ⟨.fin 2, .fin 100, "bullish", 2⟩⟩
      (by decide) (by decide) (by rfl)).1 rfl |>.2.2.2 (by decide)

theorem except_ok_bind {ε α β : Type} (x : α) (f : α → Except ε β) :
    (Except.ok x : Except ε α) >>= f = f x := rfl

theorem getLast?_some_of_length_pos {α : Type} {l : List α} (h : 0 < l.length) :
    ∃ v, l.getLast? = some v := by
  cases hl : l.getLast? with
  | none =>
      rw [List.getLast?_eq_none_iff] at hl
      rw [hl] at h
      simp at h
  | some v => exact ⟨v, rfl⟩

theorem ewmMeanQ_length (span : ℕ) (xs : List ℚ) :
    (ewmMeanQ span xs).length = xs.length := by
  simp [ewmMeanQ]

/-- C3 amended: the D1 classifier behaves exactly as the claim states
(SIDEWAYS below `max(fast, slow)` observations, otherwise the comparison
of the latest EMA values), while the H4 classifier falls back to SIDEWAYS
below `max(fast, slow, adx_period)` observations — its insufficiency
guard also counts the ADX period — and otherwise compares the EMAs as
claimed. -/
theorem c3_classifier (cfg : StrategyConfig) (df : DataFrame)
    (hh : df.hasHighCol = true) (hl : df.hasLowCol = true) (hc : df.hasCloseCol = true)
    (hd1f : 1 ≤ cfg.d1_ema_fast) (hd1s : 1 ≤ cfg.d1_ema_slow)
    (hh4f : 1 ≤ cfg.h4_ema_fast) (hh4s : 1 ≤ cfg.h4_ema_slow)
    (hadx : 1 ≤ cfg.adx_period) (hatrp : 1 ≤ cfg.atr_period) :
    computeTrendD1 cfg df =
      .ok (classifyPerSpec cfg.d1_ema_fast cfg.d1_ema_slow (df.rows.map (·.close))) ∧
    (computeTrendH4 cfg df).map (fun t => t.1) =
      .ok (classifyPerSpecH4 cfg.h4_ema_fast cfg.h4_ema_slow cfg.adx_period
        (df.rows.map (·.close))) := by
  have hC : df.getClose = .ok (df.rows.map (·.close)) := by
    rw [DataFrame.getClose, if_pos hc]
  have hH : df.getHigh = .ok (df.rows.map (·.high)) := by
    rw [DataFrame.getHigh, if_pos hh]
  have hL : df.getLow = .ok (df.rows.map (·.low)) := by
    rw [DataFrame.getLow, if_pos hl]
  have hlen : (df.rows.map (·.close)).length = df.rows.length := by simp
  constructor
  · by_cases hg : df.rows.length < max cfg.d1_ema_fast cfg.d1_ema_slow
    · rw [computeTrendD1, if_pos hg, classifyPerSpec, if_pos (by rw [hlen]; exact hg)]
    · obtain ⟨vf, hvf⟩ : ∃ v,
          (ewmMeanQ cfg.d1_ema_fast (df.rows.map (·.close))).getLast? = some v := by
        apply getLast?_some_of_length_pos
        rw [ewmMeanQ_length, hlen]
        omega
      obtain ⟨vs, hvs⟩ : ∃ v,
          (ewmMeanQ cfg.d1_ema_slow (df.rows.map (·.close))).getLast? = some v := by
        apply getLast?_some_of_length_pos
        rw [ewmMeanQ_length, hlen]
        omega
      have hspec : classifyPerSpec cfg.d1_ema_fast cfg.d1_ema_slow
          (df.rows.map (·.close)) =
          (if vf > vs then TrendDirection.bullish
           else if vf < vs then TrendDirection.bearish else TrendDirection.sideways) := by
        rw [classifyPerSpec, if_neg (by rw [hlen]; exact hg)]
        simp only [hvf, hvs, Option.getD_some]
      rw [hspec, computeTrendD1, if_neg hg, hC, except_ok_bind,
        ewmMeanQE, if_neg (by omega), except_ok_bind,
        ewmMeanQE, if_neg (by omega), except_ok_bind,
        ilocLast, hvf, except_ok_bind, ilocLast, hvs, except_ok_bind]
  · by_cases hg : df.rows.length <
        max (max cfg.h4_ema_fast cfg.h4_ema_slow) cfg.adx_period
    · rw [computeTrendH4, if_pos hg, classifyPerSpecH4, if_pos (by rw [hlen]; exact hg)]
      rfl
    · obtain ⟨vf, hvf⟩ : ∃ v,
          (ewmMeanQ cfg.h4_ema_fast (df.rows.map (·.close))).getLast? = some v := by
        apply getLast?_some_of_length_pos
        rw [ewmMeanQ_length, hlen]
        omega
      obtain ⟨vs, hvs⟩ : ∃ v,
          (ewmMeanQ cfg.h4_ema_slow (df.rows.map (·.close))).getLast? = some v := by
        apply getLast?_some_of_length_pos
        rw [ewmMeanQ_length, hlen]
        omega
      have hspec : classifyPerSpecH4 cfg.h4_ema_fast cfg.h4_ema_slow cfg.adx_period
          (df.rows.map (·.close)) =
          (if vf > vs then TrendDirection.bullish
           else if vf < vs then TrendDirection.bearish else TrendDirection.sideways) := by
        rw [classifyPerSpecH4, if_neg (by rw [hlen]; exact hg)]
        simp only [hvf, hvs, Option.getD_some]
      have hAdx : calculateAdx cfg.adx_period df = .ok (fillna0 (rollingMeanP cfg.adx_period
          (List.zipWith (fun p m => (((p.sub m).abs).div (p.add m)).mul (.fin 100))
            (List.zipWith (fun d a => (d.div a).mul (.fin 100))
              (rollingMeanP cfg.adx_period
                (dmLists (df.rows.map (·.high)) (df.rows.map (·.low))).1)
              (rollingMeanP cfg.adx_period (trueRangeList (df.rows.map (·.high))
                (df.rows.map (·.low)) (df.rows.map (·.close)))))
            (List.zipWith (fun d a => (d.div a).mul (.fin 100))
              (rollingMeanP cfg.adx_period
                (dmLists (df.rows.map (·.high)) (df.rows.map (·.low))).2)
              (rollingMeanP cfg.adx_period (trueRangeList (df.rows.map (·.high))
                (df.rows.map (·.low)) (df.rows.map (·.close)))))))) := by
        rw [calculateAdx, hH, except_ok_bind, hL, except_ok_bind, hC, except_ok_bind,
          if_neg (by omega)]
      have hAtr : calculateAtr cfg.atr_period df = .ok (fillna0 (ewmMeanP cfg.atr_period
          (trueRangeList (df.rows.map (·.high)) (df.rows.map (·.low))
            (df.rows.map (·.close))))) := by
        rw [calculateAtr, hH, except_ok_bind, hL, except_ok_bind, hC, except_ok_bind,
          if_neg (by omega)]
      rw [hspec, computeTrendH4, if_neg hg, hC, except_ok_bind,
        ewmMeanQE, if_neg (by omega), except_ok_bind,
        ewmMeanQE, if_neg (by omega), except_ok_bind,
        hAdx, except_ok_bind, hAtr, except_ok_bind,
        ilocLast, hvf, except_ok_bind, ilocLast, hvs, except_ok_bind]
      rfl

theorem map_range_getLast {α : Type} (f : ℕ → α) (n : ℕ) (hn : 0 < n) :
    ((List.range n).map f).getLast? = some (f (n - 1)) := by
  cases n with
  | zero => omega
  | succ m =>
      rw [List.range_succ, List.map_append]
      simp [List.getLast?_concat]

theorem ewmMeanQ_getLast (span : ℕ) (xs : List ℚ) (h : xs ≠ []) :
    (ewmMeanQ span xs).getLast? =
      some (wsum (((span : ℚ) - 1) / ((span : ℚ) + 1)) xs.reverse /
        wsum (((span : ℚ) - 1) / ((span : ℚ) + 1)) (List.replicate xs.length 1)) := by
  have hn : 0 < xs.length := List.length_pos.mpr h
  simp only [ewmMeanQ]
  rw [map_range_getLast _ _ hn]
  have he : xs.length - 1 + 1 = xs.length := by omega
  rw [he, List.take_length]

theorem wsum_eq_sum (r : ℚ) (l : List ℚ) :
    wsum r l = ∑ i in Finset.range l.length, r ^ i * l.getD i 0 := by
  induction l with
  | nil => simp [wsum]
  | cons x t ih =>
      rw [wsum, ih, List.length_cons, Finset.sum_range_succ']
      simp only [List.getD_cons_succ, List.getD_cons_zero, pow_zero, one_mul]
      rw [Finset.mul_sum]
      have hb : ∀ i ∈ Finset.range t.length,
          r ^ (i + 1) * t.getD i 0 = r * (r ^ i * t.getD i 0) := by
        intro i _
        ring
      rw [Finset.sum_congr rfl hb]
      ring

theorem wsum_replicate (r : ℚ) (n : ℕ) :
    wsum r (List.replicate n (1 : ℚ)) = ∑ i in Finset.range n, r ^ i := by
  induction n with
  | zero => simp [wsum]
  | succ m ih =>
      rw [List.replicate_succ, wsum, ih, Finset.sum_range_succ']
      simp only [pow_zero]
      rw [Finset.mul_sum]
      have hb : ∀ i ∈ Finset.range m, r ^ (i + 1) = r * r ^ i := by
        intro i _
        ring
      rw [Finset.sum_congr rfl hb]
      ring

theorem geom_pos (r : ℚ) (hr : 0 ≤ r) (n : ℕ) (hn : 0 < n) :
    0 < ∑ i in Finset.range n, r ^ i := by
  apply Finset.sum_pos'
  · intro i _
    exact pow_nonneg hr i
  · exact ⟨0, Finset.mem_range.mpr hn, by norm_num⟩

theorem span_decay_strict (f s : ℕ) (hf : 1 ≤ f) (hfs : f < s) :
    ((f : ℚ) - 1) / ((f : ℚ) + 1) < ((s : ℚ) - 1) / ((s : ℚ) + 1) := by
  have hf1 : (1 : ℚ) ≤ (f : ℚ) := by exact_mod_cast hf
  have hfs2 : (f : ℚ) < (s : ℚ) := by exact_mod_cast hfs
  rw [div_lt_div_iff₀ (by linarith) (by linarith)]
  nlinarith

theorem ema_cross (v : ℕ → ℚ) (r1 r2 : ℚ) (hr1 : 0 ≤ r1) (hr12 : r1 < r2) (N : ℕ)
    (hv : ∀ i j, i < j → j < N → v j < v i) :
    ∀ n, 2 ≤ n → n ≤ N →
      (∑ i in Finset.range n, r2 ^ i * v i) * (∑ i in Finset.range n, r1 ^ i) <
      (∑ i in Finset.range n, r1 ^ i * v i) * (∑ i in Finset.range n, r2 ^ i) := by
  intro n
  induction n with
  | zero => intro h2 _; omega
  | succ m ih =>
      intro h2 hN
      by_cases hm : 2 ≤ m
      · have hstep := ih hm (by omega)
        rw [Finset.sum_range_succ, Finset.sum_range_succ, Finset.sum_range_succ,
          Finset.sum_range_succ]
        have key : ∀ i ∈ Finset.range m,
            r2 ^ i * v i * r1 ^ m + r2 ^ m * v m * r1 ^ i ≤
            r1 ^ i * v i * r2 ^ m + r1 ^ m * v m * r2 ^ i := by
          intro i hi
          rw [Finset.mem_range] at hi
          have hvi : v m < v i := hv i m hi (by omega)
          have hr2 : (0 : ℚ) ≤ r2 := by linarith
          have hcross : 0 ≤ r1 ^ i * r2 ^ m - r2 ^ i * r1 ^ m := by
            have e1 : r2 ^ m = r2 ^ i * r2 ^ (m - i) := by
              rw [← pow_add]
              congr 1
              omega
            have e2 : r1 ^ m = r1 ^ i * r1 ^ (m - i) := by
              rw [← pow_add]
              congr 1
              omega
            rw [e1, e2]
            have hp : r1 ^ (m - i) ≤ r2 ^ (m - i) :=
              pow_le_pow_left₀ hr1 (le_of_lt hr12) (m - i)
            have h1 : (0 : ℚ) ≤ r1 ^ i := pow_nonneg hr1 i
            have h2' : (0 : ℚ) ≤ r2 ^ i := pow_nonneg hr2 i
            nlinarith [mul_nonneg (mul_nonneg h1 h2') (sub_nonneg.mpr hp)]
          nlinarith
        have hsum := Finset.sum_le_sum key
        rw [Finset.sum_add_distrib, Finset.sum_add_distrib, ← Finset.sum_mul,
          ← Finset.sum_mul, ← Finset.mul_sum, ← Finset.mul_sum] at hsum
        nlinarith [hsum, hstep]
      · have hm1 : m = 1 := by omega
        subst hm1
        simp only [Finset.sum_range_succ, Finset.sum_range_zero, pow_zero, pow_one,
          one_mul, zero_add]
        have hv01 : v 1 < v 0 := hv 0 1 (by omega) (by omega)
        nlinarith [mul_pos (sub_pos.mpr hv01) (sub_pos.mpr hr12)]

theorem reverse_getD_lt (xs : List ℚ) (i j : ℕ) (hij : i < j) (hj : j < xs.length)
    (hinc : ∀ a b, a < b → b < xs.length → xs.getD a 0 < xs.getD b 0) :
    xs.reverse.getD j 0 < xs.reverse.getD i 0 := by
  have hi : i < xs.length := lt_trans hij hj
  have hjr : j < xs.reverse.length := by rw [List.length_reverse]; exact hj
  have hir : i < xs.reverse.length := by rw [List.length_reverse]; exact hi
  rw [List.getD_eq_getElem _ _ hjr, List.getD_eq_getElem _ _ hir]
  rw [List.getElem_reverse, List.getElem_reverse]
  have h1 : xs.length - 1 - j < xs.length - 1 - i := by omega
  have h2 : xs.length - 1 - i < xs.length := by omega
  have h3 : xs.length - 1 - j < xs.length := by omega
  have := hinc _ _ h1 h2
  rw [List.getD_eq_getElem _ _ h3, List.getD_eq_getElem _ _ h2] at this
  exact this

theorem reverse_getD_gt (xs : List ℚ) (i j : ℕ) (hij : i < j) (hj : j < xs.length)
    (hdec : ∀ a b, a < b → b < xs.length → xs.getD b 0 < xs.getD a 0) :
    xs.reverse.getD i 0 < xs.reverse.getD j 0 := by
  have hi : i < xs.length := lt_trans hij hj
  have hjr : j < xs.reverse.length := by rw [List.length_reverse]; exact hj
  have hir : i < xs.reverse.length := by rw [List.length_reverse]; exact hi
  rw [List.getD_eq_getElem _ _ hjr, List.getD_eq_getElem _ _ hir]
  rw [List.getElem_reverse, List.getElem_reverse]
  have h1 : xs.length - 1 - j < xs.length - 1 - i := by omega
  have h2 : xs.length - 1 - i < xs.length := by omega
  have h3 : xs.length - 1 - j < xs.length := by omega
  have := hdec _ _ h1 h2
  rw [List.getD_eq_getElem _ _ h3, List.getD_eq_getElem _ _ h2] at this
  exact this

theorem ema_last_compare_inc (fast slow : ℕ) (xs : List ℚ)
    (hf : 1 ≤ fast) (hfs : fast < slow) (hxlen : 2 ≤ xs.length)
    (hinc : ∀ a b, a < b → b < xs.length → xs.getD a 0 < xs.getD b 0) :
    wsum (((slow : ℚ) - 1) / ((slow : ℚ) + 1)) xs.reverse /
        wsum (((slow : ℚ) - 1) / ((slow : ℚ) + 1)) (List.replicate xs.length 1) <
      wsum (((fast : ℚ) - 1) / ((fast : ℚ) + 1)) xs.reverse /
        wsum (((fast : ℚ) - 1) / ((fast : ℚ) + 1)) (List.replicate xs.length 1) := by
  have hr1 : 0 ≤ ((fast : ℚ) - 1) / ((fast : ℚ) + 1) := span_decay_nonneg fast hf
  have hr12 := span_decay_strict fast slow hf hfs
  have hr2 : 0 ≤ ((slow : ℚ) - 1) / ((slow : ℚ) + 1) := le_trans hr1 (le_of_lt hr12)
  have hnpos : 0 < xs.length := by omega
  have hD1pos := geom_pos _ hr1 xs.length hnpos
  have hD2pos := geom_pos _ hr2 xs.length hnpos
  have hv : ∀ i j, i < j → j < xs.length →
      xs.reverse.getD j 0 < xs.reverse.getD i 0 :=
    fun i j hij hj => reverse_getD_lt xs i j hij hj hinc
  have hcross := ema_cross (fun i => xs.reverse.getD i 0) _ _ hr1 hr12 xs.length hv
    xs.length hxlen le_rfl
  rw [wsum_replicate, wsum_replicate, wsum_eq_sum, wsum_eq_sum]
  simp only [List.length_reverse]
  rw [div_lt_div_iff₀ hD2pos hD1pos]
  exact hcross

theorem ema_last_compare_dec (fast slow : ℕ) (xs : List ℚ)
    (hf : 1 ≤ fast) (hfs : fast < slow) (hxlen : 2 ≤ xs.length)
    (hdec : ∀ a b, a < b → b < xs.length → xs.getD b 0 < xs.getD a 0) :
    wsum (((fast : ℚ) - 1) / ((fast : ℚ) + 1)) xs.reverse /
        wsum (((fast : ℚ) - 1) / ((fast : ℚ) + 1)) (List.replicate xs.length 1) <
      wsum (((slow : ℚ) - 1) / ((slow : ℚ) + 1)) xs.reverse /
        wsum (((slow : ℚ) - 1) / ((slow : ℚ) + 1)) (List.replicate xs.length 1) := by
  have hr1 : 0 ≤ ((fast : ℚ) - 1) / ((fast : ℚ) + 1) := span_decay_nonneg fast hf
  have hr12 := span_decay_strict fast slow hf hfs
  have hr2 : 0 ≤ ((slow : ℚ) - 1) / ((slow : ℚ) + 1) := le_trans hr1 (le_of_lt hr12)
  have hnpos : 0 < xs.length := by omega
  have hD1pos := geom_pos _ hr1 xs.length hnpos
  have hD2pos := geom_pos _ hr2 xs.length hnpos
  have hv : ∀ i j, i < j → j < xs.length →
      (fun k => -(xs.reverse.getD k 0)) j < (fun k => -(xs.reverse.getD k 0)) i := by
    intro i j hij hj
    simp only [neg_lt_neg_iff]
    exact reverse_getD_gt xs i j hij hj hdec
  have hcross := ema_cross (fun k => -(xs.reverse.getD k 0)) _ _ hr1 hr12 xs.length hv
    xs.length hxlen le_rfl
  have hneg1 : (∑ i in Finset.range xs.length,
      (((fast : ℚ) - 1) / ((fast : ℚ) + 1)) ^ i * (fun k => -(xs.reverse.getD k 0)) i) =
      -(∑ i in Finset.range xs.length,
        (((fast : ℚ) - 1) / ((fast : ℚ) + 1)) ^ i * xs.reverse.getD i 0) := by
    rw [← Finset.sum_neg_distrib]
    apply Finset.sum_congr rfl
    intro i _
    ring
  have hneg2 : (∑ i in Finset.range xs.length,
      (((slow : ℚ) - 1) / ((slow : ℚ) + 1)) ^ i * (fun k => -(xs.reverse.getD k 0)) i) =
      -(∑ i in Finset.range xs.length,
        (((slow : ℚ) - 1) / ((slow : ℚ) + 1)) ^ i * xs.reverse.getD i 0) := by
    rw [← Finset.sum_neg_distrib]
    apply Finset.sum_congr rfl
    intro i _
    ring
  rw [hneg1, hneg2] at hcross
  rw [wsum_replicate, wsum_replicate, wsum_eq_sum, wsum_eq_sum]
  simp only [List.length_reverse]
  rw [div_lt_div_iff₀ hD1pos hD2pos]
  nlinarith [hcross]

/-- C8: with a fast period below the slow one, every close series that is
strictly increasing over a window longer than both EMA periods classifies
as BULLISH, and every strictly decreasing one as BEARISH. -/
theorem c8_monotone_series (cfg : StrategyConfig) (df : DataFrame)
    (hc : df.hasCloseCol = true)
    (hf1 : 1 ≤ cfg.d1_ema_fast)
    (hfs : cfg.d1_ema_fast < cfg.d1_ema_slow)
    (hlen : cfg.d1_ema_slow < df.rows.length) :
    ((df.rows.map (·.close)).Pairwise (· < ·) →
      computeTrendD1 cfg df = .ok .bullish) ∧
    ((df.rows.map (·.close)).Pairwise (· > ·) →
      computeTrendD1 cfg df = .ok .bearish) := by
  have hCl : df.getClose = .ok (df.rows.map (·.close)) := by
    rw [DataFrame.getClose, if_pos hc]
  have hlencl : (df.rows.map (·.close)).length = df.rows.length := by simp
  have hne : df.rows.map (·.close) ≠ [] := by
    intro hcon
    rw [hcon] at hlencl
    simp at hlencl
    omega
  have hguard : ¬df.rows.length < max cfg.d1_ema_fast cfg.d1_ema_slow := by omega
  have hvf := ewmMeanQ_getLast cfg.d1_ema_fast _ hne
  have hvs := ewmMeanQ_getLast cfg.d1_ema_slow _ hne
  have hrun : computeTrendD1 cfg df = .ok
      (if (wsum (((cfg.d1_ema_fast : ℚ) - 1) / ((cfg.d1_ema_fast : ℚ) + 1))
            (df.rows.map (·.close)).reverse /
          wsum (((cfg.d1_ema_fast : ℚ) - 1) / ((cfg.d1_ema_fast : ℚ) + 1))
            (List.replicate (df.rows.map (·.close)).length 1)) >
          (wsum (((cfg.d1_ema_slow : ℚ) - 1) / ((cfg.d1_ema_slow : ℚ) + 1))
            (df.rows.map (·.close)).reverse /
          wsum (((cfg.d1_ema_slow : ℚ) - 1) / ((cfg.d1_ema_slow : ℚ) + 1))
            (List.replicate (df.rows.map (·.close)).length 1))
        then TrendDirection.bullish
        else if (wsum (((cfg.d1_ema_fast : ℚ) - 1) / ((cfg.d1_ema_fast : ℚ) + 1))
            (df.rows.map (·.close)).reverse /
          wsum (((cfg.d1_ema_fast : ℚ) - 1) / ((cfg.d1_ema_fast : ℚ) + 1))
            (List.replicate (df.rows.map (·.close)).length 1)) <
          (wsum (((cfg.d1_ema_slow : ℚ) - 1) / ((cfg.d1_ema_slow : ℚ) + 1))
            (df.rows.map (·.close)).reverse /
          wsum (((cfg.d1_ema_slow : ℚ) - 1) / ((cfg.d1_ema_slow : ℚ) + 1))
            (List.replicate (df.rows.map (·.close)).length 1))
        then TrendDirection.bearish else TrendDirection.sideways) := by
    rw [computeTrendD1, if_neg hguard, hCl, except_ok_bind,
      ewmMeanQE, if_neg (by omega), except_ok_bind,
      ewmMeanQE, if_neg (by omega), except_ok_bind,
      ilocLast, hvf, except_ok_bind, ilocLast, hvs, except_ok_bind]
  constructor
  · intro hpair
    have hinc : ∀ a b, a < b → b < (df.rows.map (·.close)).length →
        (df.rows.map (·.close)).getD a 0 < (df.rows.map (·.close)).getD b 0 := by
      intro a b hab hb
      have ha : a < (df.rows.map (·.close)).length := lt_trans hab hb
      rw [List.getD_eq_getElem _ _ ha, List.getD_eq_getElem _ _ hb]
      exact List.pairwise_iff_getElem.mp hpair a b ha hb hab
    have hlt := ema_last_compare_inc cfg.d1_ema_fast cfg.d1_ema_slow _
      hf1 hfs (by omega) hinc
    rw [hrun, if_pos hlt]
  · intro hpair
    have hdec : ∀ a b, a < b → b < (df.rows.map (·.close)).length →
        (df.rows.map (·.close)).getD b 0 < (df.rows.map (·.close)).getD a 0 := by
      intro a b hab hb
      have ha : a < (df.rows.map (·.close)).length := lt_trans hab hb
      rw [List.getD_eq_getElem _ _ ha, List.getD_eq_getElem _ _ hb]
      exact List.pairwise_iff_getElem.mp hpair a b ha hb hab
    have hlt := ema_last_compare_dec cfg.d1_ema_fast cfg.d1_ema_slow _
      hf1 hfs (by omega) hdec
    rw [hrun, if_neg (lt_asymm hlt), if_pos hlt]

theorem c8_monotone_series_witness :
    computeTrendD1 c8cfg c8dfInc = .ok .bullish ∧
      computeTrendD1 c8cfg c8dfDec = .ok .bearish :=
  ⟨(c8_monotone_series c8cfg c8dfInc rfl (by decide) (by decide) (by decide)).1 (by decide),
   (c8_monotone_series c8cfg c8dfDec rfl (by decide) (by decide) (by decide)).2 (by decide)⟩

theorem c3_classifier_witness :
    computeTrendD1 c3cfg c3df =
      .ok (classifyPerSpec c3cfg.d1_ema_fast c3cfg.d1_ema_slow
        (c3df.rows.map (·.close))) ∧
    (computeTrendH4 c3cfg c3df).map (fun t => t.1) =
      .ok (classifyPerSpecH4 c3cfg.h4_ema_fast c3cfg.h4_ema_slow c3cfg.adx_period
        (c3df.rows.map (·.close))) :=
  c3_classifier c3cfg c3df rfl rfl rfl (by decide) (by decide) (by decide)
    (by decide) (by decide) (by decide)
